import Mathlib

/-!
Verification of the dutch-parking-detection merge engine.

This file gives a shallow embedding of the geometric merge engine of the
repository (src/backend/obb_merger.py, src/backend/pipeline.py,
src/backend/capacity_estimator.py) and proves or refutes the frozen claims
about it.

Modelling conventions:
* Python floats are modelled as exact rationals (`ℚ`); Python `int(x)`
  truncation toward zero is `pyInt`, and Python `round(x, 2)` is `round2`
  (round half to even, as Python's `round` does).
* Python detection dicts are modelled as structures whose fields are the
  keys the merge engine reads or writes; an optional key is an `Option`
  field, and `payload` stands for all remaining dict entries that are
  copied verbatim by `dict.copy()`.
* The Shapely geometry library is modelled by an explicit interface
  `PixelGeo P`: each field is one Shapely operation used by the code, and
  an operation that can raise an exception returns an `Option` (with
  `none` for the raising case, which the Python code catches).  The code
  under verification is embedded as functions parametric in this
  interface; `BoxGeo` instantiates it with exact rational rectangle
  geometry for concrete test inputs, and `FailGeo` is the same model with
  a failing polygon union, used to exercise the exception branches.
-/

/- The library marks rational arithmetic irreducible; re-enable unfolding
so that `decide` can evaluate the embedded functions on concrete inputs. -/
attribute [local semireducible] Rat.mul Rat.inv Rat.add Rat.sub

/-- Python `int(x)` for a rational: truncation toward zero. -/
def pyInt (q : ℚ) : ℤ := q.num.tdiv q.den

/-- The floor of a rational, written so that the kernel can evaluate it
(`Int./` is Euclidean division, so this is `⌊q⌋`). -/
def ratFloor (q : ℚ) : ℤ := q.num / q.den

/-- Round a rational to the nearest integer, ties to even (Python `round`). -/
def roundHalfEven (q : ℚ) : ℤ :=
  if q - ratFloor q < 1/2 then ratFloor q
  else if (1/2 : ℚ) < q - ratFloor q then ratFloor q + 1
  else if 2 ∣ ratFloor q then ratFloor q else ratFloor q + 1

/-- Python `round(x, 2)`. -/
def round2 (q : ℚ) : ℚ := (roundHalfEven (q * 100) : ℚ) / 100

/-- Python `max(list)` (0 for the empty list, which Python would reject). -/
def maxD : List ℚ → ℚ
  | [] => 0
  | x :: xs => xs.foldl max x

/-- Python `min(list)` (0 for the empty list, which Python would reject). -/
def minD : List ℚ → ℚ
  | [] => 0
  | x :: xs => xs.foldl min x

/-- The even-index elements `obb[0::2]` (x coordinates). -/
def evens : List ℚ → List ℚ
  | x :: _ :: rest => x :: evens rest
  | [x] => [x]
  | [] => []

/-- The odd-index elements `obb[1::2]` (y coordinates). -/
def odds : List ℚ → List ℚ
  | _ :: y :: rest => y :: odds rest
  | _ => []

/-- The coordinate-pair list `[(pts[i], pts[i+1]) for i in range(0, len(pts)-1, 2)]`
used by `OBBMerger._detection_to_polygon`; a trailing odd element is dropped. -/
def pairUp : List ℚ → List (ℚ × ℚ)
  | x :: y :: rest => (x, y) :: pairUp rest
  | _ => []

/-- The signed shoelace sum of `calculate_obb_area_pixels` (the Python loop
`area += x[i]*y[j] - x[j]*y[i]` with `j = (i+1) % n`).  Out-of-range reads
are 0 here; Python raises `IndexError` instead, which only happens for an
odd number of coordinates, a case the claims never exercise. -/
def shoelaceSum (x y : List ℚ) (n : ℕ) : ℚ :=
  (List.range n).foldl
    (fun acc i =>
      let j := (i + 1) % n
      acc + x.getD i 0 * y.getD j 0 - x.getD j 0 * y.getD i 0)
    0

/-- `capacity_estimator.calculate_obb_area_pixels`. -/
def calculate_obb_area_pixels (obb_coords : List ℚ) : ℚ :=
  if obb_coords.length < 6 then 0
  else
    let x := evens obb_coords
    let y := odds obb_coords
    let n := x.length
    if n < 3 then 0
    else |shoelaceSum x y n| / 2

/-- `capacity_estimator.calculate_obb_dimensions_pixels`. -/
def calculate_obb_dimensions_pixels (obb_coords : List ℚ) : ℚ × ℚ :=
  if obb_coords.length < 6 then (0, 0)
  else
    (maxD (evens obb_coords) - minD (evens obb_coords),
     maxD (odds obb_coords) - minD (odds obb_coords))

/-- A parking-spot calibration record (`STANDARD_PARKING_SPOT` etc.). -/
structure SpotDims where
  spotLength : ℚ
  width : ℚ
  area : ℚ
deriving DecidableEq

def STANDARD_PARKING_SPOT : SpotDims := ⟨5, 5/2, 25/2⟩

def COMPACT_PARKING_SPOT : SpotDims := ⟨9/2, 23/10, 207/20⟩

def METERS_PER_PIXEL : ℚ := 1/20

/-- The result dict of `estimate_parking_capacity`. -/
structure CapacityResult where
  area_sq_meters : ℚ
  dimensions_meters : ℚ × ℚ
  estimated_capacity : ℤ
  capacity_range : ℤ × ℤ
  linear_estimate : ℤ
  spot_type : String
  spot_size_sq_m : ℚ
deriving DecidableEq

/-- `capacity_estimator.estimate_parking_capacity`. -/
def estimate_parking_capacity (obb_coords : List ℚ) (meters_per_pixel : ℚ)
    (spot_type : String) : CapacityResult :=
  let spot := if spot_type = "standard" then STANDARD_PARKING_SPOT else COMPACT_PARKING_SPOT
  let area_pixels := calculate_obb_area_pixels obb_coords
  let area_sq_meters := area_pixels * meters_per_pixel ^ 2
  let wh := calculate_obb_dimensions_pixels obb_coords
  let width_m := wh.1 * meters_per_pixel
  let height_m := wh.2 * meters_per_pixel
  let efficiency_low : ℚ := 13/20
  let efficiency_high : ℚ := 17/20
  let capacity_low := pyInt (area_sq_meters * efficiency_low / spot.area)
  let capacity_high := pyInt (area_sq_meters * efficiency_high / spot.area)
  let estimated_capacity := pyInt (area_sq_meters * (3/4) / spot.area)
  let cars_along_length := pyInt (width_m / spot.width)
  let cars_along_width := pyInt (height_m / spot.width)
  { area_sq_meters := round2 area_sq_meters
    dimensions_meters := (round2 width_m, round2 height_m)
    estimated_capacity := max 1 estimated_capacity
    capacity_range := (max 0 capacity_low, max 1 capacity_high)
    linear_estimate := max cars_along_length cars_along_width
    spot_type := spot_type
    spot_size_sq_m := spot.area }

/-- A pixel-space detection dict as read by `OBBMerger`: the keys
`polygon`, `bbox`, `confidence`, `merged_count`, `area_sq_meters`; the
`payload` field stands for all other entries, carried along unchanged by
`dict.copy()`. -/
structure PixelDet where
  polygon : Option (List ℚ)
  bbox : Option (List ℚ)
  confidence : ℚ
  merged_count : Option ℕ
  area_sq_meters : Option ℚ
  payload : ℕ
deriving DecidableEq

/-- A geo-space detection dict as read by
`PipelineOrchestrator._merge_geo_polygons`.  The `confidence` list holds
optional entries because the code filters `if c is not None`. -/
structure GeoDet where
  geoPolygon : Option (List (ℚ × ℚ))
  geoBoundingBox : Option (List ℚ)
  vehicle_count : Option ℤ
  is_occupied : Bool
  estimated_capacity : Option ℤ
  area_sq_meters : Option ℚ
  merged_count : Option ℕ
  confidence : List (Option ℚ)
  payload : ℕ
deriving DecidableEq

/-- The state stored by `OBBMerger.__init__`. -/
structure OBBMerger where
  iou_threshold : ℚ
  min_overlap_area : ℚ
  max_distance : ℚ
  enabled : Bool
  available : Bool
deriving DecidableEq

/-- `OBBMerger.__init__(iou_threshold, min_overlap_area, max_distance, enabled)`:
it only stores its arguments (plus the module-level Shapely availability
flag) and logs; there is no validation of any kind. -/
def mkOBBMerger (iou_threshold min_overlap_area max_distance : ℚ)
    (enabled shapely_available : Bool) : OBBMerger :=
  { iou_threshold := iou_threshold
    min_overlap_area := min_overlap_area
    max_distance := max_distance
    enabled := enabled
    available := shapely_available }

/-- The module-level singleton
`obb_merger = OBBMerger(iou_threshold=0.1, min_overlap_area=0.05, max_distance=50.0)`. -/
def obb_merger : OBBMerger := mkOBBMerger (1/10) (1/20) 50 true true

/-- The Shapely operations used by the merge engine, as an explicit
interface over an abstract polygon type `P`.  An operation that can raise
(polygon construction, `unary_union`, `.exterior` access) returns an
`Option`, `none` standing for the exception the Python code catches.
`multiGeoms` is `some` of the component list exactly when the value is a
`MultiPolygon`. -/
structure PixelGeo (P : Type) where
  mkPoly : List (ℚ × ℚ) → Option P
  isValid : P → Bool
  isEmpty : P → Bool
  buffer0 : P → P
  area : P → ℚ
  intersects : P → P → Bool
  interIsEmpty : P → P → Bool
  interArea : P → P → ℚ
  unionArea : P → P → ℚ
  distance : P → P → ℚ
  unaryUnion : List P → Option P
  multiGeoms : P → Option (List P)
  exteriorCoords : P → Option (List (ℚ × ℚ))
  bounds : P → ℚ × ℚ × ℚ × ℚ

/-- The `elif "bbox" in det and det["bbox"]:` branch of
`OBBMerger._detection_to_polygon`. -/
def detectionToPolygonBbox {P : Type} (G : PixelGeo P) (det : PixelDet) : Option P :=
  match det.bbox with
  | some bbox =>
    if bbox ≠ [] then
      if 4 ≤ bbox.length then
        let x1 := bbox.getD 0 0
        let y1 := bbox.getD 1 0
        let x2 := bbox.getD 2 0
        let y2 := bbox.getD 3 0
        G.mkPoly [(x1, y1), (x2, y1), (x2, y2), (x1, y2), (x1, y1)]
      else none
    else none
  | none => none

/-- `OBBMerger._detection_to_polygon`. -/
def detectionToPolygon {P : Type} (G : PixelGeo P) (det : PixelDet) : Option P :=
  match det.polygon with
  | some pts =>
    if pts ≠ [] then
      if 6 ≤ pts.length then
        let coords := pairUp pts
        let coords :=
          if coords ≠ [] ∧ coords.head? ≠ coords.getLast? then
            coords ++ [coords.headD (0, 0)]
          else coords
        if 3 ≤ coords.length then G.mkPoly coords else none
      else none
    else detectionToPolygonBbox G det
  | none => detectionToPolygonBbox G det

/-- `OBBMerger._polygons_overlap`: the pairwise adjacency test. -/
def polygonsOverlap {P : Type} (G : PixelGeo P) (cfg : OBBMerger)
    (poly1 poly2 : P) : Bool :=
  if G.intersects poly1 poly2 = true
      ∧ G.interIsEmpty poly1 poly2 = false
      ∧ 0 < G.unionArea poly1 poly2
      ∧ 0 < min (G.area poly1) (G.area poly2)
      ∧ (cfg.iou_threshold ≤ G.interArea poly1 poly2 / G.unionArea poly1 poly2
          ∨ cfg.min_overlap_area ≤ G.interArea poly1 poly2 / min (G.area poly1) (G.area poly2))
  then true
  else decide (G.distance poly1 poly2 ≤ cfg.max_distance)

/-- The polygon-collection loop of `merge_overlapping_detections`
(conversion, zero-buffer repair, validity and positive-area filtering):
the resulting `polygons_with_data` list. -/
def validPolys {P : Type} (G : PixelGeo P) (dets : List PixelDet) :
    List (P × PixelDet) :=
  dets.filterMap (fun det =>
    match detectionToPolygon G det with
    | none => none
    | some poly0 =>
      let poly := if !G.isValid poly0 then G.buffer0 poly0 else poly0
      if G.isValid poly = true ∧ 0 < G.area poly then some (poly, det) else none)

/-! Union-find, exactly as the nested `find`/`union` closures in
`OBBMerger._group_overlapping_polygons` (and their verbatim copies in
`PipelineOrchestrator._merge_geo_polygons`): a plain parent list,
recursive find with full path compression, and `parent[px] = py` on
union.  Python's recursion has no fuel; here `find` takes fuel, and the
development proves that fuel `parent.length` always suffices. -/

/-- Read `parent[x]` (out-of-range reads, which Python would reject,
return `x` itself). -/
def pget (par : List ℕ) (x : ℕ) : ℕ := par.getD x x

/-- Root lookup without path compression (a pure reading of the parent
chain), used to state what `find` computes. -/
def findNC (par : List ℕ) : ℕ → ℕ → ℕ
  | 0, x => x
  | fuel + 1, x => if pget par x = x then x else findNC par fuel (pget par x)

/-- The `find` closure with path compression: returns the root and the
updated parent list (`parent[x] = find(parent[x])` for every node on the
chain). -/
def findUF (par : List ℕ) : ℕ → ℕ → ℕ × List ℕ
  | 0, x => (x, par)
  | fuel + 1, x =>
    if pget par x = x then (x, par)
    else
      let r := findUF par fuel (pget par x)
      (r.1, r.2.set x r.1)

/-- The `union` closure: `px, py = find(x), find(y); if px != py: parent[px] = py`. -/
def unionUF (par : List ℕ) (x y : ℕ) : List ℕ :=
  let fx := findUF par par.length x
  let fy := findUF fx.2 fx.2.length y
  if fx.1 ≠ fy.1 then fy.2.set fx.1 fy.1 else fy.2

/-- The pair enumeration `for i in range(n): for j in range(i+1, n)`. -/
def allPairs (n : ℕ) : List (ℕ × ℕ) :=
  (List.range n).flatMap
    (fun i => ((List.range n).filter (fun j => i < j)).map (fun j => (i, j)))

/-- The pairwise union loop: union `i` and `j` whenever the adjacency
test holds. -/
def foldPairs (adj : ℕ → ℕ → Bool) (ps : List (ℕ × ℕ)) (par : List ℕ) : List ℕ :=
  ps.foldl (fun par2 ij => if adj ij.1 ij.2 then unionUF par2 ij.1 ij.2 else par2) par

/-- Append value `v` to the entry of key `r` of an insertion-ordered
association list (a Python dict of lists: `groups_dict[root].append(...)`). -/
def addToGroups {α : Type} (gs : List (ℕ × List α)) (r : ℕ) (v : α) :
    List (ℕ × List α) :=
  match gs with
  | [] => [(r, [v])]
  | (k, vs) :: rest =>
    if k = r then (k, vs ++ [v]) :: rest else (k, vs) :: addToGroups rest r v

/-- The group-collection loop `for idx in range(n): groups_dict[find(idx)].append(idx)`
(each `find` call also compresses the parent list). -/
def collectGroups (par : List ℕ) (n : ℕ) : List ℕ × List (ℕ × List ℕ) :=
  (List.range n).foldl
    (fun st idx =>
      let f := findUF st.1 st.1.length idx
      (f.2, addToGroups st.2 f.1 idx))
    (par, [])

/-- The full grouping of indices `0..n-1` by the union-find over the
adjacency relation: build the parent list, union all adjacent pairs,
then partition by root in insertion order (`list(groups_dict.values())`). -/
def groupIndices (n : ℕ) (adj : ℕ → ℕ → Bool) : List (List ℕ) :=
  let par := foldPairs adj (allPairs n) (List.range n)
  ((collectGroups par n).2).map (fun e => e.2)

/-- The adjacency test between entries `i` and `j` of `polygons_with_data`
in pixel space (`self._polygons_overlap(poly1, poly2)`); only invoked at
in-range indices. -/
def pairAdj {P : Type} (G : PixelGeo P) (cfg : OBBMerger)
    (pwd : List (P × PixelDet)) (i j : ℕ) : Bool :=
  match pwd[i]?, pwd[j]? with
  | some a, some b => polygonsOverlap G cfg a.1 b.1
  | _, _ => false

/-- `OBBMerger._group_overlapping_polygons`. -/
def groupOverlappingPolygons {P : Type} (G : PixelGeo P) (cfg : OBBMerger)
    (pwd : List (P × PixelDet)) : List (List (P × PixelDet)) :=
  (groupIndices pwd.length (pairAdj G cfg pwd)).map
    (fun g => g.filterMap (fun k => pwd[k]?))

/-- Python `max(geoms, key=lambda p: p.area)`: first maximum, `none` on an
empty list (where Python raises `ValueError`, caught by the caller). -/
def argmaxArea {P : Type} (G : PixelGeo P) (gs : List P) : Option P :=
  gs.foldl
    (fun acc p =>
      match acc with
      | none => some p
      | some q => if G.area q < G.area p then some p else some q)
    none

/-- Shapely `polygon.bounds` flattened to `[minx, miny, maxx, maxy]`
(`OBBMerger._polygon_to_bbox`). -/
def polygonToBbox {P : Type} (G : PixelGeo P) (poly : P) : List ℚ :=
  let b := G.bounds poly
  [b.1, b.2.1, b.2.2.1, b.2.2.2]

/-- The `try:` body of `OBBMerger._merge_group`: union, largest component
of a MultiPolygon, zero-buffer repair, exterior extraction, closing-point
removal, and metadata aggregation.  Returns `none` when an exception
occurs or when the merged polygon has fewer than 3 boundary points (the
code returns `detections[0]` in both cases; the caller substitutes it). -/
def mergeGroupTry {P : Type} (G : PixelGeo P) (polys : List P)
    (dets : List PixelDet) (d0 : PixelDet) : Option PixelDet :=
  match (match polys with
         | [p] => some p
         | _ => G.unaryUnion polys) with
  | none => none
  | some m0 =>
    match (match G.multiGeoms m0 with
           | some gs => argmaxArea G gs
           | none => some m0) with
    | none => none
    | some m1 =>
      let m := if !G.isValid m1 then G.buffer0 m1 else m1
      match G.exteriorCoords m with
      | none => none
      | some coords0 =>
        let coords :=
          if coords0 ≠ [] ∧ coords0.head? = coords0.getLast? then coords0.dropLast
          else coords0
        if coords.length < 3 then none
        else
          let polygon_flat := coords.flatMap (fun pt => [pt.1, pt.2])
          let confidences := dets.map (fun d => d.confidence)
          let avg_confidence :=
            if confidences ≠ [] then confidences.sum / (confidences.length : ℚ) else 0
          some { d0 with
                 polygon := some polygon_flat
                 bbox := some (polygonToBbox G m)
                 confidence := avg_confidence
                 merged_count := some dets.length
                 area_sq_meters :=
                   match d0.area_sq_meters with
                   | some _ => some (round2 (G.area m * (1/20) ^ 2))
                   | none => none }

/-- `OBBMerger._merge_group`: `none` only for the empty group (which the
caller never produces); on any internal failure it falls back to the
group's first detection. -/
def mergeGroup {P : Type} (G : PixelGeo P) (group : List (P × PixelDet)) :
    Option PixelDet :=
  match group with
  | [] => none
  | (p0, d0) :: rest =>
    let polys := p0 :: rest.map (fun x => x.1)
    let dets := d0 :: rest.map (fun x => x.2)
    some (match mergeGroupTry G polys dets d0 with
          | some md => md
          | none => d0)

/-- `OBBMerger.merge_overlapping_detections`. -/
def mergeOverlappingDetections {P : Type} (G : PixelGeo P) (cfg : OBBMerger)
    (detections : List PixelDet) : List PixelDet :=
  if cfg.enabled = false ∨ cfg.available = false ∨ detections.length = 0 then detections
  else if detections.length = 1 then detections
  else
    let pwd := validPolys G detections
    if pwd.length = 0 then detections
    else
      (groupOverlappingPolygons G cfg pwd).flatMap
        (fun g =>
          if g.length = 1 then g.map (fun x => x.2)
          else
            match mergeGroup G g with
            | some d => [d]
            | none => [])

/-! The geo-space (global) merge of `PipelineOrchestrator._merge_geo_polygons`. -/

/-- The geo polygon-collection loop: `geoPolygon` truthiness and length
check, `Polygon(coords)` construction (exceptions caught and skipped),
zero-buffer repair, validity and non-emptiness filtering. -/
def geoValidPolys {P : Type} (G : PixelGeo P) (dets : List GeoDet) :
    List (P × GeoDet) :=
  dets.filterMap (fun det =>
    match det.geoPolygon with
    | some coords =>
      if coords ≠ [] ∧ 3 ≤ coords.length then
        match G.mkPoly coords with
        | some poly0 =>
          let poly := if !G.isValid poly0 then G.buffer0 poly0 else poly0
          if G.isValid poly = true ∧ G.isEmpty poly = false then some (poly, det) else none
        | none => none
      else none
    | none => none)

/-- The geo-space pairwise grouping decision: a plain `intersects` check
(`polygons_with_data[i]['polygon'].intersects(polygons_with_data[j]['polygon'])`). -/
def geoPairAdj {P : Type} (G : PixelGeo P) (pwd : List (P × GeoDet)) (i j : ℕ) : Bool :=
  match pwd[i]?, pwd[j]? with
  | some a, some b => G.intersects a.1 b.1
  | _, _ => false

/-- The `try:` body of the geo-space group merge (steps 4 of
`_merge_geo_polygons`): union, largest MultiPolygon component, exterior
extraction, bounds unpacking (note the source unpacks
`min_lng, min_lat, max_lng, max_lat = merged_poly.bounds`, i.e. in
x-y order of the stored points), and metadata aggregation.  `none`
stands for an exception inside the block. -/
def geoMergeGroup {P : Type} (G : PixelGeo P) (group : List (P × GeoDet)) :
    Option GeoDet :=
  match group with
  | [] => none
  | (p0, d0) :: rest =>
    let polys := p0 :: rest.map (fun x => x.1)
    let originals := d0 :: rest.map (fun x => x.2)
    match G.unaryUnion polys with
    | none => none
    | some m0 =>
      match (match G.multiGeoms m0 with
             | some gs => argmaxArea G gs
             | none => some m0) with
      | none => none
      | some m =>
        match G.exteriorCoords m with
        | none => none
        | some ext =>
          let b := G.bounds m
          let min_lng := b.1
          let min_lat := b.2.1
          let max_lng := b.2.2.1
          let max_lat := b.2.2.2
          let vc := (originals.map (fun d => d.vehicle_count.getD 0)).sum
          let cs := originals.flatMap (fun d => d.confidence.filterMap id)
          some { d0 with
                 geoPolygon := some ext
                 geoBoundingBox := some [min_lat, min_lng, max_lat, max_lng]
                 vehicle_count := some vc
                 is_occupied := decide (0 < vc)
                 estimated_capacity :=
                   some ((originals.map (fun d => d.estimated_capacity.getD 0)).sum)
                 area_sq_meters :=
                   some ((originals.map (fun d => d.area_sq_meters.getD 0)).sum)
                 merged_count :=
                   some ((originals.map (fun d => d.merged_count.getD 1)).sum)
                 confidence :=
                   if cs ≠ [] then [some (cs.sum / (cs.length : ℚ))] else [some 0] }

/-- The per-group step of the geo merge loop: singletons pass through;
otherwise merge, and on an exception extend the output with all the
group's original detections. -/
def geoGroupContribution {P : Type} (G : PixelGeo P) (group : List (P × GeoDet)) :
    List GeoDet :=
  if group.length = 1 then group.map (fun x => x.2)
  else
    match geoMergeGroup G group with
    | some d => [d]
    | none => group.map (fun x => x.2)

/-- `PipelineOrchestrator._merge_geo_polygons`. -/
def mergeGeoPolygons {P : Type} (G : PixelGeo P) (detections : List GeoDet) :
    List GeoDet :=
  if detections.length ≤ 1 then detections
  else
    let pwd := geoValidPolys G detections
    if pwd.length = 0 then detections
    else
      ((groupIndices pwd.length (geoPairAdj G pwd)).map
          (fun g => g.filterMap (fun k => pwd[k]?))).flatMap
        (geoGroupContribution G)

/-- The per-space inputs that `PipelineOrchestrator.run` feeds into the
detection record it constructs (lines 294-307): the post-merge pixel
detection, the vehicle count from the vehicle counter, the computed geo
polygon and geo bounding box, the capacity-estimation result, and the
opaque remaining fields (images, tile index). -/
structure TileSpaceInput where
  det : PixelDet
  vehicle_count : ℤ
  geo_polygon : List (ℚ × ℚ)
  geo_bbox : List ℚ
  capacity : CapacityResult
  payload : ℕ
deriving DecidableEq

/-- The detection record constructed per parking space by
`PipelineOrchestrator.run` (lines 294-311), including the conditional
`merged_count` copy. -/
def mkTileDetection (inp : TileSpaceInput) : GeoDet :=
  { geoPolygon := some inp.geo_polygon
    geoBoundingBox := some inp.geo_bbox
    vehicle_count := some inp.vehicle_count
    is_occupied := decide (0 < inp.vehicle_count)
    estimated_capacity := some inp.capacity.estimated_capacity
    area_sq_meters := some inp.capacity.area_sq_meters
    merged_count := inp.det.merged_count
    confidence := [some inp.det.confidence]
    payload := inp.payload }

/-- The detection list returned by `PipelineOrchestrator.run`: the
per-tile constructed records, passed through the global geo merge
(step 5).  Tile iteration order and failed-tile skipping do not affect
the shape of each surviving record, so the accumulated per-space inputs
are taken as the argument. -/
def runDetections {P : Type} (G : PixelGeo P) (inputs : List TileSpaceInput) :
    List GeoDet :=
  mergeGeoPolygons G (inputs.map mkTileDetection)

/-! A concrete instantiation of the Shapely interface with exact rational
geometry for axis-aligned rectangles, used for concrete test inputs.  On
the rectangle inputs used in the witnesses and counterexamples below the
operations agree with Shapely; `distance` is the sum of the axis gaps,
which equals the true distance whenever one gap is zero (all uses below). -/

/-- Polygons of the box model are their coordinate rings. -/
abbrev BoxPoly := List (ℚ × ℚ)

def boxMinX (p : BoxPoly) : ℚ := minD (p.map (fun c => c.1))

def boxMaxX (p : BoxPoly) : ℚ := maxD (p.map (fun c => c.1))

def boxMinY (p : BoxPoly) : ℚ := minD (p.map (fun c => c.2))

def boxMaxY (p : BoxPoly) : ℚ := maxD (p.map (fun c => c.2))

/-- Shoelace area of a coordinate ring. -/
def boxArea (p : BoxPoly) : ℚ :=
  calculate_obb_area_pixels (p.flatMap (fun c => [c.1, c.2]))

def boxesIntersect (p q : BoxPoly) : Bool :=
  decide (boxMinX q ≤ boxMaxX p ∧ boxMinX p ≤ boxMaxX q
    ∧ boxMinY q ≤ boxMaxY p ∧ boxMinY p ≤ boxMaxY q)

def boxInterArea (p q : BoxPoly) : ℚ :=
  max 0 (min (boxMaxX p) (boxMaxX q) - max (boxMinX p) (boxMinX q)) *
    max 0 (min (boxMaxY p) (boxMaxY q) - max (boxMinY p) (boxMinY q))

def boxDistance (p q : BoxPoly) : ℚ :=
  max 0 (max (boxMinX p - boxMaxX q) (boxMinX q - boxMaxX p)) +
    max 0 (max (boxMinY p - boxMaxY q) (boxMinY q - boxMaxY p))

/-- The closed 5-point ring of the bounding box of a point set. -/
def ringOfBounds (pts : List (ℚ × ℚ)) : BoxPoly :=
  [(boxMinX pts, boxMinY pts), (boxMaxX pts, boxMinY pts),
   (boxMaxX pts, boxMaxY pts), (boxMinX pts, boxMaxY pts),
   (boxMinX pts, boxMinY pts)]

/-- Close a ring (Shapely's exterior always repeats the first point). -/
def closeRing (p : BoxPoly) : BoxPoly :=
  match p.head? with
  | none => p
  | some h => if p.getLast? = some h then p else p ++ [h]

/-- The rectangle model of the Shapely interface. -/
def BoxGeo : PixelGeo BoxPoly :=
  { mkPoly := fun coords => some coords
    isValid := fun _ => true
    isEmpty := fun p => p.isEmpty
    buffer0 := fun p => p
    area := boxArea
    intersects := boxesIntersect
    interIsEmpty := fun p q => !boxesIntersect p q
    interArea := boxInterArea
    unionArea := fun p q => boxArea p + boxArea q - boxInterArea p q
    distance := boxDistance
    unaryUnion := fun ps =>
      match ps.flatten with
      | [] => none
      | pts => some (ringOfBounds pts)
    multiGeoms := fun _ => none
    exteriorCoords := fun p =>
      match p with
      | [] => none
      | _ => some (closeRing p)
    bounds := fun p => (boxMinX p, boxMinY p, boxMaxX p, boxMaxY p) }

/-- The rectangle model with a failing polygon union: models a run in
which Shapely's `unary_union` raises (e.g. a GEOS topology exception),
to exercise the exception branches of the two group mergers. -/
def FailGeo : PixelGeo BoxPoly :=
  { BoxGeo with unaryUnion := fun _ => none }

/-! Concrete test inputs used by witnesses and counterexamples. -/

/-- A 10×10 square ring at the origin. -/
def sq10 : BoxPoly := [(0, 0), (10, 0), (10, 10), (0, 10)]

/-- A 10×10 square ring 10 units to the right of `sq10` (gap 10 on x). -/
def sq10far : BoxPoly := [(20, 0), (30, 0), (30, 10), (20, 10)]

/-- A unit square ring. -/
def sqUnit : BoxPoly := [(0, 0), (1, 0), (1, 1), (0, 1)]

/-- A unit square ring with a gap of 1 on x after `sqUnit`. -/
def sqGap1 : BoxPoly := [(2, 0), (3, 0), (3, 1), (2, 1)]

/-- A geo detection on `sq10` with confidence `[0.5]`. -/
def gHalf : GeoDet :=
  { geoPolygon := some sq10
    geoBoundingBox := some [0, 0, 10, 10]
    vehicle_count := some 2
    is_occupied := true
    estimated_capacity := some 5
    area_sq_meters := some 10
    merged_count := none
    confidence := [some (1/2)]
    payload := 0 }

/-- A geo detection on `sq10` with confidence `[0.9]`. -/
def gNine : GeoDet := { gHalf with confidence := [some (9/10)], payload := 1 }

/-- Geo detections on `sq10` with confidence `[0.7]` each. -/
def gSeven1 : GeoDet := { gHalf with confidence := [some (7/10)], payload := 2 }

def gSeven2 : GeoDet := { gHalf with confidence := [some (7/10)], payload := 3 }

/-- A geo detection on the separated square `sq10far`. -/
def gFar : GeoDet := { gHalf with geoPolygon := some sq10far, payload := 4 }

/-- The flat coordinates of the 10×10 square (pixel space). -/
def pxSquare : List ℚ := [0, 0, 10, 0, 10, 10, 0, 10]

/-- A pixel detection on the square with `merged_count = 2`. -/
def dMerged2 : PixelDet :=
  { polygon := some pxSquare
    bbox := none
    confidence := 1/2
    merged_count := some 2
    area_sq_meters := none
    payload := 0 }

/-- A pixel detection on the square with `merged_count = 3`. -/
def dMerged3 : PixelDet := { dMerged2 with confidence := 9/10, merged_count := some 3, payload := 1 }

/-- A pixel detection whose `polygon` has only 2 points (4 coordinates):
`_detection_to_polygon` returns `None` for it. -/
def dInvalid : PixelDet :=
  { polygon := some [0, 0, 1, 1]
    bbox := none
    confidence := 1
    merged_count := none
    area_sq_meters := none
    payload := 2 }

/-- A plain valid pixel detection on the square. -/
def dPlain : PixelDet :=
  { polygon := some pxSquare
    bbox := none
    confidence := 1
    merged_count := none
    area_sq_meters := none
    payload := 3 }

/-! C8: configuration validation. -/

/-- C8 counterexample: the claim says invalid numeric configuration values
(negative thresholds, non-positive distances) are rejected at
construction time with a validation error.  In the code
`OBBMerger.__init__` has no validation at all: constructing with
`iou_threshold = -1`, `min_overlap_area = -1`, `max_distance = -1`
succeeds and stores exactly those values. -/
theorem C8_counterexample :
    mkOBBMerger (-1) (-1) (-1) true true =
      { iou_threshold := -1, min_overlap_area := -1, max_distance := -1,
        enabled := true, available := true }
    ∧ (mkOBBMerger (-1) (-1) (-1) true true).iou_threshold < 0
    ∧ (mkOBBMerger (-1) (-1) (-1) true true).max_distance ≤ 0 := by
  refine ⟨rfl, by norm_num [mkOBBMerger], by norm_num [mkOBBMerger]⟩

/-- C8 (amended): constructing a merge configuration performs no
validation: every numeric value, valid or not, is accepted and stored
unchanged (never clamped), and construction always succeeds. -/
theorem C8_construction_stores_values_unchanged
    (iou ov maxd : ℚ) (enabled avail : Bool) :
    (mkOBBMerger iou ov maxd enabled avail).iou_threshold = iou
    ∧ (mkOBBMerger iou ov maxd enabled avail).min_overlap_area = ov
    ∧ (mkOBBMerger iou ov maxd enabled avail).max_distance = maxd
    ∧ (mkOBBMerger iou ov maxd enabled avail).enabled = enabled
    ∧ (mkOBBMerger iou ov maxd enabled avail).available = avail :=
  ⟨rfl, rfl, rfl, rfl, rfl⟩

/-! C9: capacity estimation. -/

/-- Python `int()` truncation equals the floor for non-negative rationals. -/
theorem pyInt_eq_floor (q : ℚ) (h : 0 ≤ q) : pyInt q = ⌊q⌋ := by
  have hnum : 0 ≤ q.num := Rat.num_nonneg.mpr h
  have hden : 0 ≤ (q.den : ℤ) := Int.ofNat_nonneg q.den
  rw [pyInt, Int.tdiv_eq_ediv hnum hden, Rat.floor_def]

/-- The pixel area is non-negative. -/
theorem calculate_obb_area_pixels_nonneg (obb : List ℚ) :
    0 ≤ calculate_obb_area_pixels obb := by
  unfold calculate_obb_area_pixels
  split
  · exact le_refl 0
  · dsimp only
    split
    · exact le_refl 0
    · positivity

/-- C9 counterexample: the claim says `area_sq_meters` is the shoelace
area times `meters_per_pixel` squared; the code additionally rounds it to
2 decimal places (`round(area_sq_meters, 2)`).  For the triangle
`[0,0,1,0,0,3]` at 0.05 m/px the exact product is 0.00375 but the
returned value is 0. -/
theorem C9_counterexample :
    (estimate_parking_capacity [0, 0, 1, 0, 0, 3] (1/20) "standard").area_sq_meters = 0
    ∧ calculate_obb_area_pixels [0, 0, 1, 0, 0, 3] * (1/20 : ℚ) ^ 2 = 3/800
    ∧ (0 : ℚ) ≠ 3/800 := by
  refine ⟨by decide, by decide, by decide⟩

/-- C9 (amended): `estimate_parking_capacity` computes the exact area as
the shoelace polygon area of the coordinates times `meters_per_pixel`
squared and returns it rounded to 2 decimal places; `estimated_capacity`
is `max 1 ⌊area * 0.75 / spot_area⌋` with spot area 12.5 m² for
"standard" and 10.35 m² otherwise, computed from the unrounded area; and
`capacity_range` is `(max 0 ⌊area * 0.65 / spot_area⌋,
max 1 ⌊area * 0.85 / spot_area⌋)`.  The 1000×400-pixel rectangle at
0.05 m/px yields exactly 1000 m² and capacity 60.  (The even-length
hypothesis keeps the statement inside the inputs on which the Python
code does not raise `IndexError`.) -/
theorem C9_capacity_formulas (obb : List ℚ) (mpp : ℚ) (hev : Even obb.length) :
    ((estimate_parking_capacity obb mpp "standard").area_sq_meters
        = round2 (calculate_obb_area_pixels obb * mpp ^ 2)
      ∧ (estimate_parking_capacity obb mpp "standard").estimated_capacity
        = max 1 ⌊calculate_obb_area_pixels obb * mpp ^ 2 * (3/4) / (25/2)⌋
      ∧ (estimate_parking_capacity obb mpp "standard").capacity_range
        = (max 0 ⌊calculate_obb_area_pixels obb * mpp ^ 2 * (13/20) / (25/2)⌋,
           max 1 ⌊calculate_obb_area_pixels obb * mpp ^ 2 * (17/20) / (25/2)⌋)
      ∧ (estimate_parking_capacity obb mpp "compact").estimated_capacity
        = max 1 ⌊calculate_obb_area_pixels obb * mpp ^ 2 * (3/4) / (207/20)⌋)
    ∧ (estimate_parking_capacity [0, 0, 1000, 0, 1000, 400, 0, 400] (1/20)
          "standard").area_sq_meters = 1000
    ∧ (estimate_parking_capacity [0, 0, 1000, 0, 1000, 400, 0, 400] (1/20)
          "standard").estimated_capacity = 60 := by
  have harea : 0 ≤ calculate_obb_area_pixels obb * mpp ^ 2 :=
    mul_nonneg (calculate_obb_area_pixels_nonneg obb) (sq_nonneg mpp)
  have hstd : ¬ ("compact" = "standard") := by decide
  have hq : ∀ c : ℚ, 0 < c → ∀ e : ℚ, 0 ≤ e →
      0 ≤ calculate_obb_area_pixels obb * mpp ^ 2 * e / c := by
    intro c hc e he
    exact div_nonneg (mul_nonneg harea he) (le_of_lt hc)
  refine ⟨⟨?_, ?_, ?_, ?_⟩, by decide, by decide⟩
  · simp [estimate_parking_capacity]
  · simp only [estimate_parking_capacity, if_pos rfl]
    rw [pyInt_eq_floor _ (hq _ (by decide) _ (by decide))]
    rfl
  · simp only [estimate_parking_capacity, if_pos rfl]
    rw [pyInt_eq_floor _ (hq _ (by decide) _ (by decide)),
      pyInt_eq_floor _ (hq _ (by decide) _ (by decide))]
    rfl
  · simp only [estimate_parking_capacity, if_neg hstd]
    rw [pyInt_eq_floor _ (hq _ (by decide) _ (by decide))]
    rfl

/-- Witness for C9 (amended) at the 1000×400 rectangle. -/
theorem C9_capacity_formulas_witness :
    Even ([0, 0, 1000, 0, 1000, 400, 0, 400] : List ℚ).length
    ∧ (((estimate_parking_capacity [0, 0, 1000, 0, 1000, 400, 0, 400] (1/20)
            "standard").area_sq_meters
          = round2 (calculate_obb_area_pixels [0, 0, 1000, 0, 1000, 400, 0, 400] * (1/20) ^ 2)
        ∧ (estimate_parking_capacity [0, 0, 1000, 0, 1000, 400, 0, 400] (1/20)
            "standard").estimated_capacity
          = max 1 ⌊calculate_obb_area_pixels [0, 0, 1000, 0, 1000, 400, 0, 400] * (1/20 : ℚ) ^ 2
              * (3/4) / (25/2)⌋
        ∧ (estimate_parking_capacity [0, 0, 1000, 0, 1000, 400, 0, 400] (1/20)
            "standard").capacity_range
          = (max 0 ⌊calculate_obb_area_pixels [0, 0, 1000, 0, 1000, 400, 0, 400] * (1/20 : ℚ) ^ 2
                * (13/20) / (25/2)⌋,
             max 1 ⌊calculate_obb_area_pixels [0, 0, 1000, 0, 1000, 400, 0, 400] * (1/20 : ℚ) ^ 2
                * (17/20) / (25/2)⌋)
        ∧ (estimate_parking_capacity [0, 0, 1000, 0, 1000, 400, 0, 400] (1/20)
            "compact").estimated_capacity
          = max 1 ⌊calculate_obb_area_pixels [0, 0, 1000, 0, 1000, 400, 0, 400] * (1/20 : ℚ) ^ 2
              * (3/4) / (207/20)⌋)
      ∧ (estimate_parking_capacity [0, 0, 1000, 0, 1000, 400, 0, 400] (1/20)
            "standard").area_sq_meters = 1000
      ∧ (estimate_parking_capacity [0, 0, 1000, 0, 1000, 400, 0, 400] (1/20)
            "standard").estimated_capacity = 60) :=
  ⟨by decide, C9_capacity_formulas [0, 0, 1000, 0, 1000, 400, 0, 400] (1/20) (by decide)⟩

/-! C4: the pixel-space adjacency test. -/

/-- C4 (confirmed): for valid (positive-area) polygons, under the Shapely
facts that an intersecting pair has a non-empty intersection,
`_polygons_overlap` returns true exactly when the polygons intersect with
positive union area and IoU or overlap-ratio above threshold, or the
boundary distance is at most `max_distance`; in particular two
non-intersecting polygons at distance exactly `max_distance` merge and at
`max_distance + ε` do not. -/
theorem C4_polygons_overlap_iff {P : Type} (G : PixelGeo P) (cfg : OBBMerger) (p q : P)
    (h1 : 0 < G.area p) (h2 : 0 < G.area q)
    (hne : G.intersects p q = true → G.interIsEmpty p q = false) :
    (polygonsOverlap G cfg p q = true ↔
      ((G.intersects p q = true ∧ 0 < G.unionArea p q ∧
          (cfg.iou_threshold ≤ G.interArea p q / G.unionArea p q ∨
            cfg.min_overlap_area ≤ G.interArea p q / min (G.area p) (G.area q)))
        ∨ G.distance p q ≤ cfg.max_distance))
    ∧ (G.intersects p q = false → G.distance p q = cfg.max_distance →
        polygonsOverlap G cfg p q = true)
    ∧ (∀ ε : ℚ, 0 < ε → G.intersects p q = false →
        G.distance p q = cfg.max_distance + ε → polygonsOverlap G cfg p q = false) := by
  have hmin : 0 < min (G.area p) (G.area q) := lt_min h1 h2
  by_cases hC : G.intersects p q = true
      ∧ G.interIsEmpty p q = false
      ∧ 0 < G.unionArea p q
      ∧ 0 < min (G.area p) (G.area q)
      ∧ (cfg.iou_threshold ≤ G.interArea p q / G.unionArea p q
          ∨ cfg.min_overlap_area ≤ G.interArea p q / min (G.area p) (G.area q))
  · have hres : polygonsOverlap G cfg p q = true := by
      unfold polygonsOverlap
      rw [if_pos hC]
    refine ⟨?_, ?_, ?_⟩
    · rw [hres]
      simp only [true_iff]
      exact Or.inl ⟨hC.1, hC.2.2.1, hC.2.2.2.2⟩
    · intro _ _
      exact hres
    · intro ε _ hfalse _
      rw [hC.1] at hfalse
      exact absurd hfalse (by simp)
  · have hres : polygonsOverlap G cfg p q = decide (G.distance p q ≤ cfg.max_distance) := by
      unfold polygonsOverlap
      rw [if_neg hC]
    refine ⟨?_, ?_, ?_⟩
    · rw [hres]
      simp only [decide_eq_true_eq]
      constructor
      · exact Or.inr
      · rintro (⟨hi, hu, hdisj⟩ | hd)
        · exact absurd ⟨hi, hne hi, hu, hmin, hdisj⟩ hC
        · exact hd
    · intro _ hdist
      rw [hres, hdist]
      simp
    · intro ε hε _ hdist
      rw [hres, hdist]
      simp only [decide_eq_false_iff_not, not_le]
      linarith

/-- Witness for C4 at two concrete unit squares with an x-gap of 1 and
the default configuration (distance 1 ≤ 50: they merge). -/
theorem C4_polygons_overlap_iff_witness :
    (0 < BoxGeo.area sqUnit)
    ∧ (0 < BoxGeo.area sqGap1)
    ∧ (BoxGeo.intersects sqUnit sqGap1 = true → BoxGeo.interIsEmpty sqUnit sqGap1 = false)
    ∧ ((polygonsOverlap BoxGeo obb_merger sqUnit sqGap1 = true ↔
        ((BoxGeo.intersects sqUnit sqGap1 = true ∧ 0 < BoxGeo.unionArea sqUnit sqGap1 ∧
            (obb_merger.iou_threshold ≤
                BoxGeo.interArea sqUnit sqGap1 / BoxGeo.unionArea sqUnit sqGap1 ∨
              obb_merger.min_overlap_area ≤
                BoxGeo.interArea sqUnit sqGap1 / min (BoxGeo.area sqUnit) (BoxGeo.area sqGap1)))
          ∨ BoxGeo.distance sqUnit sqGap1 ≤ obb_merger.max_distance))
      ∧ (BoxGeo.intersects sqUnit sqGap1 = false →
          BoxGeo.distance sqUnit sqGap1 = obb_merger.max_distance →
          polygonsOverlap BoxGeo obb_merger sqUnit sqGap1 = true)
      ∧ (∀ ε : ℚ, 0 < ε → BoxGeo.intersects sqUnit sqGap1 = false →
          BoxGeo.distance sqUnit sqGap1 = obb_merger.max_distance + ε →
          polygonsOverlap BoxGeo obb_merger sqUnit sqGap1 = false)) :=
  ⟨by decide, by decide, by decide,
    C4_polygons_overlap_iff BoxGeo obb_merger sqUnit sqGap1 (by decide) (by decide) (by decide)⟩

/-! Helper lemmas for membership and record inversion. -/

/-- A detection appearing in `polygons_with_data` of the geo merge is one
of the input detections. -/
theorem geoValidPolys_mem {P : Type} (G : PixelGeo P) (dets : List GeoDet)
    (p : P) (d : GeoDet) (h : (p, d) ∈ geoValidPolys G dets) : d ∈ dets := by
  unfold geoValidPolys at h
  rcases List.mem_filterMap.mp h with ⟨det, hdet, hf⟩
  have hdd : d = det := by
    repeat' (first | split at hf | dsimp only at hf)
    all_goals
      first
      | exact (Prod.ext_iff.mp (Option.some.inj hf)).2.symm
      | exact absurd hf (by simp)
  rw [hdd]
  exact hdet

/-- A detection appearing in `polygons_with_data` of the pixel merge is
one of the input detections. -/
theorem validPolys_mem {P : Type} (G : PixelGeo P) (dets : List PixelDet)
    (p : P) (d : PixelDet) (h : (p, d) ∈ validPolys G dets) : d ∈ dets := by
  unfold validPolys at h
  rcases List.mem_filterMap.mp h with ⟨det, hdet, hf⟩
  have hdd : d = det := by
    repeat' (first | split at hf | dsimp only at hf)
    all_goals
      first
      | exact (Prod.ext_iff.mp (Option.some.inj hf)).2.symm
      | exact absurd hf (by simp)
  rw [hdd]
  exact hdet

/-- An element of a reconstructed group is an entry of `polygons_with_data`. -/
theorem mem_of_mem_groups {α : Type} (pwd : List α) (idxGroups : List (List ℕ))
    (g : List α) (x : α)
    (hg : g ∈ idxGroups.map (fun gi => gi.filterMap (fun k => pwd[k]?)))
    (hx : x ∈ g) : x ∈ pwd := by
  rcases List.mem_map.mp hg with ⟨gi, _, rfl⟩
  rcases List.mem_filterMap.mp hx with ⟨k, _, hk⟩
  exact List.getElem?_mem hk

/-- Inversion of a successful geo-space group merge: the aggregated
fields of the produced record. -/
theorem geoMergeGroup_fields {P : Type} (G : PixelGeo P) (group : List (P × GeoDet))
    (d : GeoDet) (h : geoMergeGroup G group = some d) :
    d.merged_count = some ((group.map (fun x => x.2.merged_count.getD 1)).sum)
    ∧ (∃ vc, d.vehicle_count = some vc ∧ d.is_occupied = decide (0 < vc))
    ∧ d.confidence =
        (if (group.map (fun x => x.2)).flatMap (fun g => g.confidence.filterMap id) ≠ [] then
          [some (((group.map (fun x => x.2)).flatMap (fun g => g.confidence.filterMap id)).sum /
            ((((group.map (fun x => x.2)).flatMap (fun g => g.confidence.filterMap id)).length : ℚ)))]
        else [some 0]) := by
  cases group with
  | nil => exact absurd h (by simp [geoMergeGroup])
  | cons hd rest =>
    obtain ⟨p0, d0⟩ := hd
    unfold geoMergeGroup at h
    dsimp only at h
    repeat' (first | split at h | dsimp only at h)
    all_goals
      first
      | (rw [← Option.some.inj h]
         refine ⟨?_, ⟨_, rfl, rfl⟩, ?_⟩ <;>
           first
           | rfl
           | (simp only [List.map_cons, List.map_map]; rfl)
           | (split <;> first | rfl | (simp only [List.map_cons, List.map_map]; rfl) | contradiction))
      | simp at h

/-- Inversion of a successful pixel-space group merge (`try:` body):
`merged_count` is the number of detections in the group. -/
theorem mergeGroupTry_merged_count {P : Type} (G : PixelGeo P) (polys : List P)
    (dets : List PixelDet) (d0 md : PixelDet)
    (h : mergeGroupTry G polys dets d0 = some md) :
    md.merged_count = some dets.length := by
  unfold mergeGroupTry at h
  repeat' (first | split at h | dsimp only at h)
  all_goals first
    | (rw [← Option.some.inj h])
    | simp at h

/-! C2: the geo-space grouping decision versus the pixel-space adjacency test. -/

/-- C2 counterexample: the claim says the global geo-space merge groups two
polygons exactly when the section-4.2 adjacency test would return true.
For the two separated squares (gap 10, within the default
`max_distance = 50`) the adjacency test returns true, yet the geo merge
(which only checks `intersects`) leaves the two detections ungrouped. -/
theorem C2_counterexample :
    mergeGeoPolygons BoxGeo [gHalf, gFar] = [gHalf, gFar]
    ∧ polygonsOverlap BoxGeo obb_merger sq10 sq10far = true
    ∧ BoxGeo.intersects sq10 sq10far = false := by
  refine ⟨by decide, by decide, by decide⟩

/-- C2 (amended): the geo-space merge's pairwise grouping decision is a
plain `intersects` test (no IoU, overlap-ratio, or distance clause); an
intersecting pair would also be merged by the pixel-space adjacency test
(whose boundary distance is then 0), so the geo decision is strictly
stronger than, not equivalent to, the section-4.2 predicate. -/
theorem C2_geo_adjacency_is_intersection_only {P : Type} (G : PixelGeo P)
    (pwd : List (P × GeoDet)) (i j : ℕ) (cfg : OBBMerger) (a b : P)
    (hmax : 0 ≤ cfg.max_distance)
    (hdist : G.intersects a b = true → G.distance a b = 0) :
    (geoPairAdj G pwd i j = true ↔
      ∃ x y, pwd[i]? = some x ∧ pwd[j]? = some y ∧ G.intersects x.1 y.1 = true)
    ∧ (G.intersects a b = true → polygonsOverlap G cfg a b = true) := by
  constructor
  · unfold geoPairAdj
    cases hi : pwd[i]? with
    | none => simp
    | some x =>
      cases hj : pwd[j]? with
      | none => simp
      | some y =>
        simp only [Option.some.injEq]
        constructor
        · intro hxy
          exact ⟨x, y, rfl, rfl, hxy⟩
        · rintro ⟨x1, y1, rfl, rfl, hxy⟩
          exact hxy
  · intro hib
    unfold polygonsOverlap
    split
    · rfl
    · have : G.distance a b ≤ cfg.max_distance := by
        rw [hdist hib]
        exact hmax
      simp [this]

/-- Witness for C2 (amended) at two identical squares and the default
configuration. -/
theorem C2_geo_adjacency_is_intersection_only_witness :
    (0 ≤ obb_merger.max_distance)
    ∧ (BoxGeo.intersects sq10 sq10 = true → BoxGeo.distance sq10 sq10 = 0)
    ∧ ((geoPairAdj BoxGeo [(sq10, gHalf), (sq10, gNine)] 0 1 = true ↔
        ∃ x y, [(sq10, gHalf), (sq10, gNine)][0]? = some x
          ∧ [(sq10, gHalf), (sq10, gNine)][1]? = some y
          ∧ BoxGeo.intersects x.1 y.1 = true)
      ∧ (BoxGeo.intersects sq10 sq10 = true →
          polygonsOverlap BoxGeo obb_merger sq10 sq10 = true)) :=
  ⟨by decide, by decide,
    C2_geo_adjacency_is_intersection_only BoxGeo [(sq10, gHalf), (sq10, gNine)] 0 1
      obb_merger sq10 sq10 (by decide) (by decide)⟩

/-! C1: confidence aggregation of the geo-space merge. -/

/-- C1 counterexample: the claim says geo-space merges re-normalize the
flattened confidences into [0.8, 0.9] (midpoint 0.85 when all equal).
The code computes a plain arithmetic mean: merging confidences `[0.5]`
and `[0.9]` yields `[0.7]`, which is not in [0.8, 0.9], and merging
`[0.7]` and `[0.7]` yields `[0.7]`, not `[0.85]`. -/
theorem C1_counterexample :
    (mergeGeoPolygons BoxGeo [gHalf, gNine]).map (fun d => d.confidence) = [[some (7/10)]]
    ∧ ¬ ((4/5 : ℚ) ≤ 7/10)
    ∧ (mergeGeoPolygons BoxGeo [gSeven1, gSeven2]).map (fun d => d.confidence) = [[some (7/10)]]
    ∧ (7/10 : ℚ) ≠ 17/20 := by
  refine ⟨by decide, by decide, by decide, by decide⟩

/-- C1 (amended): for geo-space merges the merged `confidence` is the
one-element list holding the arithmetic mean of the members' flattened
non-null confidence values (`[0]` when there are none); no re-scaling
into [0.8, 0.9] is performed, so `[0.5]` with `[0.9]` gives `[0.7]` and
`[0.7]` with `[0.7]` gives `[0.7]`. -/
theorem C1_geo_confidence_is_plain_mean {P : Type} (G : PixelGeo P)
    (group : List (P × GeoDet)) (d : GeoDet) (h : geoMergeGroup G group = some d) :
    d.confidence =
      (if (group.map (fun x => x.2)).flatMap (fun g => g.confidence.filterMap id) ≠ [] then
        [some (((group.map (fun x => x.2)).flatMap (fun g => g.confidence.filterMap id)).sum /
          ((((group.map (fun x => x.2)).flatMap (fun g => g.confidence.filterMap id)).length : ℚ)))]
      else [some 0]) :=
  (geoMergeGroup_fields G group d h).2.2

/-- Witness for C1 (amended): merging the `[0.5]` and `[0.9]` detections
(identical squares) produces confidence `[0.7]`. -/
theorem C1_geo_confidence_is_plain_mean_witness :
    (∃ d, geoMergeGroup BoxGeo [(sq10, gHalf), (sq10, gNine)] = some d
      ∧ d.confidence =
        (if ([(sq10, gHalf), (sq10, gNine)].map (fun x => x.2)).flatMap
              (fun g => g.confidence.filterMap id) ≠ [] then
          [some ((([(sq10, gHalf), (sq10, gNine)].map (fun x => x.2)).flatMap
                (fun g => g.confidence.filterMap id)).sum /
            (((([(sq10, gHalf), (sq10, gNine)].map (fun x => x.2)).flatMap
                (fun g => g.confidence.filterMap id)).length : ℚ)))]
        else [some 0])) :=
  match hd : geoMergeGroup BoxGeo [(sq10, gHalf), (sq10, gNine)] with
  | some d => ⟨d, rfl, C1_geo_confidence_is_plain_mean BoxGeo _ d hd⟩
  | none => absurd hd (by decide)

/-! C5: merged_count aggregation. -/

/-- C5 counterexample: the claim says both merge paths sum the members'
existing `merged_count` values (default 1).  The pixel-space
`_merge_group` instead stores the group size: merging two detections
that carry `merged_count` 2 and 3 produces `merged_count = 2`, not 5. -/
theorem C5_counterexample :
    (mergeOverlappingDetections BoxGeo obb_merger [dMerged2, dMerged3]).map
        (fun d => d.merged_count) = [some 2]
    ∧ dMerged2.merged_count = some 2
    ∧ dMerged3.merged_count = some 3
    ∧ (2 : ℕ) ≠ 2 + 3 := by
  refine ⟨by decide, by decide, by decide, by decide⟩

/-- C5 (amended): on a successful merge the geo-space path sets
`merged_count` to the sum of the members' `merged_count` values
(default 1), but the pixel-space path sets it to the number of group
members, so the two paths agree only when every member carries
`merged_count` 1 (or none). -/
theorem C5_merged_count_rules {P : Type} (G : PixelGeo P) (polys : List P)
    (dets : List PixelDet) (d0 md : PixelDet) (group : List (P × GeoDet)) (d : GeoDet)
    (hpx : mergeGroupTry G polys dets d0 = some md)
    (hgeo : geoMergeGroup G group = some d) :
    md.merged_count = some dets.length
    ∧ d.merged_count = some ((group.map (fun x => x.2.merged_count.getD 1)).sum) :=
  ⟨mergeGroupTry_merged_count G polys dets d0 md hpx,
    (geoMergeGroup_fields G group d hgeo).1⟩

/-- Witness for C5 (amended) on concrete merges of two detections. -/
theorem C5_merged_count_rules_witness :
    (∃ md d, mergeGroupTry BoxGeo [sq10, sq10] [dMerged2, dMerged3] dMerged2 = some md
      ∧ geoMergeGroup BoxGeo [(sq10, gHalf), (sq10, gNine)] = some d
      ∧ md.merged_count = some ([dMerged2, dMerged3] : List PixelDet).length
      ∧ d.merged_count =
          some (([(sq10, gHalf), (sq10, gNine)].map (fun x => x.2.merged_count.getD 1)).sum)) :=
  match hpx : mergeGroupTry BoxGeo [sq10, sq10] [dMerged2, dMerged3] dMerged2 with
  | some md =>
    match hgeo : geoMergeGroup BoxGeo [(sq10, gHalf), (sq10, gNine)] with
    | some d =>
      ⟨md, d, rfl, rfl,
        (C5_merged_count_rules BoxGeo [sq10, sq10] [dMerged2, dMerged3] dMerged2 md
          [(sq10, gHalf), (sq10, gNine)] d hpx hgeo).1,
        (C5_merged_count_rules BoxGeo [sq10, sq10] [dMerged2, dMerged3] dMerged2 md
          [(sq10, gHalf), (sq10, gNine)] d hpx hgeo).2⟩
    | none => absurd hgeo (by decide)
  | none => absurd hpx (by decide)

/-! C7: failure handling of the two group mergers. -/

/-- C7 counterexample: the claim says both merge paths fall back to the
group's FIRST detection on failure.  When the geo-space union raises
(modelled by `FailGeo`), `_merge_geo_polygons` extends the output with
ALL the group's original detections, not just the first one. -/
theorem C7_counterexample :
    mergeGeoPolygons FailGeo [gHalf, gNine] = [gHalf, gNine]
    ∧ ([gHalf, gNine] : List GeoDet) ≠ [gHalf] := by
  refine ⟨by decide, by decide⟩

/-- C7 (amended): the pixel-space group merger never raises: for a
nonempty group it always produces a detection, and on an internal
failure (exception during union/extraction or a degenerate merged
polygon with fewer than 3 boundary points) that detection is the group's
first one, unchanged.  The geo-space path also never raises, but its
exception fallback emits ALL the group's original detections, not the
first one only. -/
theorem C7_failure_fallbacks {P : Type} (G : PixelGeo P) (p0 : P) (d0 : PixelDet)
    (rest : List (P × PixelDet)) (group : List (P × GeoDet)) :
    (∃ d, mergeGroup G ((p0, d0) :: rest) = some d)
    ∧ (mergeGroupTry G (p0 :: rest.map (fun x => x.1)) (d0 :: rest.map (fun x => x.2)) d0
          = none →
        mergeGroup G ((p0, d0) :: rest) = some d0)
    ∧ (geoMergeGroup G group = none →
        geoGroupContribution G group = group.map (fun x => x.2)) := by
  refine ⟨⟨_, rfl⟩, ?_, ?_⟩
  · intro hfail
    unfold mergeGroup
    dsimp only
    rw [hfail]
  · intro hfail
    unfold geoGroupContribution
    split
    · rfl
    · rw [hfail]

/-- Witness for C7 (amended) with the failing-union model on a
two-element group. -/
theorem C7_failure_fallbacks_witness :
    (∃ d, mergeGroup FailGeo [(sq10, dMerged2), (sq10, dMerged3)] = some d)
    ∧ (mergeGroupTry FailGeo
          (sq10 :: ([(sq10, dMerged3)] : List (BoxPoly × PixelDet)).map (fun x => x.1))
          (dMerged2 :: ([(sq10, dMerged3)] : List (BoxPoly × PixelDet)).map (fun x => x.2))
          dMerged2 = none →
        mergeGroup FailGeo [(sq10, dMerged2), (sq10, dMerged3)] = some dMerged2)
    ∧ (geoMergeGroup FailGeo [(sq10, gHalf), (sq10, gNine)] = none →
        geoGroupContribution FailGeo [(sq10, gHalf), (sq10, gNine)]
          = [(sq10, gHalf), (sq10, gNine)].map (fun x => x.2))
    ∧ mergeGroupTry FailGeo
        (sq10 :: ([(sq10, dMerged3)] : List (BoxPoly × PixelDet)).map (fun x => x.1))
        (dMerged2 :: ([(sq10, dMerged3)] : List (BoxPoly × PixelDet)).map (fun x => x.2))
        dMerged2 = none
    ∧ geoMergeGroup FailGeo [(sq10, gHalf), (sq10, gNine)] = none :=
  ⟨(C7_failure_fallbacks FailGeo sq10 dMerged2 [(sq10, dMerged3)]
      [(sq10, gHalf), (sq10, gNine)]).1,
   (C7_failure_fallbacks FailGeo sq10 dMerged2 [(sq10, dMerged3)]
      [(sq10, gHalf), (sq10, gNine)]).2.1,
   (C7_failure_fallbacks FailGeo sq10 dMerged2 [(sq10, dMerged3)]
      [(sq10, gHalf), (sq10, gNine)]).2.2,
   by decide, by decide⟩

/-! C3: treatment of ungeometrizable detections. -/

/-- C3 counterexample: the claim says a detection that cannot be
converted to a valid polygon is preserved unchanged in the output of
`merge_overlapping_detections`.  With one ungeometrizable detection (a
2-point polygon) alongside one valid detection, the output contains only
the valid one: the invalid detection is dropped. -/
theorem C3_counterexample :
    mergeOverlappingDetections BoxGeo obb_merger [dInvalid, dPlain] = [dPlain]
    ∧ detectionToPolygon BoxGeo dInvalid = none
    ∧ dInvalid ∉ ([dPlain] : List PixelDet) := by
  refine ⟨by decide, by decide, by decide⟩

/-- C3 (amended): an ungeometrizable detection is excluded from merge
consideration, and it is dropped from the output whenever the merger
actually runs; the whole input list is returned unchanged exactly in the
pass-through cases (merging disabled or unavailable, at most one
detection, or no valid polygon at all).  Every output element is either
an entry of `polygons_with_data` (a detection that survived geometry
validation) or a merged record produced from such entries. -/
theorem C3_invalid_detections_dropped {P : Type} (G : PixelGeo P) (cfg : OBBMerger)
    (dets : List PixelDet) :
    ((cfg.enabled = false ∨ cfg.available = false ∨ dets.length = 0 ∨ dets.length = 1
        ∨ validPolys G dets = []) →
      mergeOverlappingDetections G cfg dets = dets)
    ∧ (∀ d ∈ mergeOverlappingDetections G cfg dets,
        mergeOverlappingDetections G cfg dets = dets
        ∨ (∃ p, (p, d) ∈ validPolys G dets)
        ∨ (∃ g ∈ groupOverlappingPolygons G cfg (validPolys G dets),
            2 ≤ g.length ∧ mergeGroup G g = some d)) := by
  constructor
  · intro hcase
    unfold mergeOverlappingDetections
    rcases hcase with h | h | h | h | h
    · rw [if_pos (Or.inl h)]
    · rw [if_pos (Or.inr (Or.inl h))]
    · rw [if_pos (Or.inr (Or.inr h))]
    · split
      · rfl
      · simp [h]
    · split
      · rfl
      · split
        · rfl
        · dsimp only
          rw [h]
          simp
  · intro d hd
    unfold mergeOverlappingDetections at hd
    split at hd
    · refine Or.inl ?_
      unfold mergeOverlappingDetections
      rw [if_pos (by assumption)]
    · rename_i hcond1
      split at hd
      · refine Or.inl ?_
        unfold mergeOverlappingDetections
        rw [if_neg hcond1, if_pos (by assumption)]
      · rename_i hlen1
        dsimp only at hd
        split at hd
        · refine Or.inl ?_
          unfold mergeOverlappingDetections
          rw [if_neg hcond1, if_neg hlen1]
          dsimp only
          rw [if_pos (by assumption)]
        · refine Or.inr ?_
          rcases List.mem_flatMap.mp hd with ⟨g, hg, hdg⟩
          split at hdg
          · rcases List.mem_map.mp hdg with ⟨x, hxg, rfl⟩
            exact Or.inl ⟨x.1, mem_of_mem_groups (validPolys G dets) _ g x hg hxg⟩
          · rename_i hglen
            split at hdg
            · rename_i d' hmerge
              have hdd : d = d' := by
                cases hdg with
                | head => rfl
                | tail _ hmem => exact absurd hmem (List.not_mem_nil d)
              subst hdd
              refine Or.inr ⟨g, hg, ?_, hmerge⟩
              have hne : g ≠ [] := by
                intro hnil
                rw [hnil] at hmerge
                simp [mergeGroup] at hmerge
              have h0 : g.length ≠ 0 := fun hz => hne (List.length_eq_zero.mp hz)
              omega
            · exact absurd hdg (List.not_mem_nil d)

/-! C10: the occupancy invariant of the pipeline output. -/

/-- The occupancy invariant: `is_occupied` holds exactly when the stored
vehicle count (0 if absent) is positive. -/
def OccInv (d : GeoDet) : Prop :=
  d.is_occupied = decide (0 < d.vehicle_count.getD 0)

/-- The geo-space merge preserves the occupancy invariant: every output
detection is either an input detection (pass-through, singleton group or
exception fallback) or a merged record whose `is_occupied` is computed
from its summed `vehicle_count`. -/
theorem mergeGeoPolygons_occInv {P : Type} (G : PixelGeo P) (dets : List GeoDet)
    (hin : ∀ d ∈ dets, OccInv d) :
    ∀ d ∈ mergeGeoPolygons G dets, OccInv d := by
  intro d hd
  unfold mergeGeoPolygons at hd
  split at hd
  · exact hin d hd
  · dsimp only at hd
    split at hd
    · exact hin d hd
    · rcases List.mem_flatMap.mp hd with ⟨g, hg, hdg⟩
      have hmem_pwd : ∀ x ∈ g, x ∈ geoValidPolys G dets :=
        fun x hx => mem_of_mem_groups (geoValidPolys G dets) _ g x hg hx
      unfold geoGroupContribution at hdg
      split at hdg
      · rcases List.mem_map.mp hdg with ⟨x, hxg, rfl⟩
        exact hin x.2 (geoValidPolys_mem G dets x.1 x.2 (by
          have := hmem_pwd x hxg
          exact (Prod.mk.eta ▸ this)))
      · cases hgm : geoMergeGroup G g with
        | some dmg =>
          rw [hgm] at hdg
          have hdd : d = dmg := by
            cases hdg with
            | head => rfl
            | tail _ hmem => exact absurd hmem (List.not_mem_nil d)
          subst hdd
          rcases (geoMergeGroup_fields G g d hgm).2.1 with ⟨vc, hvc, hocc⟩
          unfold OccInv
          rw [hvc, hocc]
          rfl
        | none =>
          rw [hgm] at hdg
          rcases List.mem_map.mp hdg with ⟨x, hxg, rfl⟩
          exact hin x.2 (geoValidPolys_mem G dets x.1 x.2 (by
            have := hmem_pwd x hxg
            exact (Prod.mk.eta ▸ this)))

/-- C10 (confirmed): every detection in the pipeline's final output
satisfies `is_occupied = (vehicle_count > 0)`: the per-tile constructor
sets `is_occupied` from the counted vehicles, and the global geo merge
either passes records through or recomputes `is_occupied` from the
summed `vehicle_count` of the merged group. -/
theorem C10_is_occupied_invariant {P : Type} (G : PixelGeo P)
    (inputs : List TileSpaceInput) (d : GeoDet) (hd : d ∈ runDetections G inputs) :
    d.is_occupied = decide (0 < d.vehicle_count.getD 0) := by
  refine mergeGeoPolygons_occInv G (inputs.map mkTileDetection) ?_ d hd
  intro d0 hd0
  rcases List.mem_map.mp hd0 with ⟨inp, _, rfl⟩
  unfold OccInv mkTileDetection
  rfl

/-- Witness for C10 on a concrete single-space run. -/
theorem C10_is_occupied_invariant_witness :
    (mkTileDetection
        { det := dPlain
          vehicle_count := 2
          geo_polygon := sq10
          geo_bbox := [0, 0, 10, 10]
          capacity := estimate_parking_capacity pxSquare (1/20) "standard"
          payload := 0 }
      ∈ runDetections BoxGeo
          [{ det := dPlain
             vehicle_count := 2
             geo_polygon := sq10
             geo_bbox := [0, 0, 10, 10]
             capacity := estimate_parking_capacity pxSquare (1/20) "standard"
             payload := 0 }])
    ∧ (mkTileDetection
        { det := dPlain
          vehicle_count := 2
          geo_polygon := sq10
          geo_bbox := [0, 0, 10, 10]
          capacity := estimate_parking_capacity pxSquare (1/20) "standard"
          payload := 0 }).is_occupied
      = decide (0 < (mkTileDetection
          { det := dPlain
            vehicle_count := 2
            geo_polygon := sq10
            geo_bbox := [0, 0, 10, 10]
            capacity := estimate_parking_capacity pxSquare (1/20) "standard"
            payload := 0 }).vehicle_count.getD 0) :=
  ⟨by decide,
    C10_is_occupied_invariant BoxGeo
      [{ det := dPlain
         vehicle_count := 2
         geo_polygon := sq10
         geo_bbox := [0, 0, 10, 10]
         capacity := estimate_parking_capacity pxSquare (1/20) "standard"
         payload := 0 }] _ (by decide)⟩

/-! Verification of the union-find used by the grouping step.  A
`UFChain par x l r` is the parent chain from node `x` to its root `r`
(the list `l` collects the visited nodes); `UF n par` is the invariant
maintained by the code: the parent list has length `n`, stores values
below `n` for indices below `n`, and every node's chain terminates. -/

inductive UFChain (par : List ℕ) : ℕ → List ℕ → ℕ → Prop where
  | root (x : ℕ) : pget par x = x → UFChain par x [x] x
  | step (x : ℕ) (l : List ℕ) (r : ℕ) :
      pget par x ≠ x → UFChain par (pget par x) l r → UFChain par x (x :: l) r

/-- Node `x` reaches root `r`. -/
def RootedAt (par : List ℕ) (x r : ℕ) : Prop := ∃ l, UFChain par x l r

/-- Two nodes have a common root. -/
def SameRoot (par : List ℕ) (a b : ℕ) : Prop :=
  ∃ r, RootedAt par a r ∧ RootedAt par b r

/-- The union-find invariant. -/
def UF (n : ℕ) (par : List ℕ) : Prop :=
  par.length = n ∧ (∀ x, x < n → pget par x < n) ∧ (∀ x, x < n → ∃ r, RootedAt par x r)

theorem chain_head {par : List ℕ} {x : ℕ} {l : List ℕ} {r : ℕ}
    (h : UFChain par x l r) : ∃ t, l = x :: t := by
  cases h with
  | root _ _ => exact ⟨[], rfl⟩
  | step _ l _ _ _ => exact ⟨l, rfl⟩

theorem chain_unique {par : List ℕ} {x : ℕ} {l l' : List ℕ} {r r' : ℕ}
    (h : UFChain par x l r) (h' : UFChain par x l' r') : l = l' ∧ r = r' := by
  induction h generalizing l' r' with
  | root x hx =>
    cases h' with
    | root _ _ => exact ⟨rfl, rfl⟩
    | step _ _ _ hne _ => exact absurd hx hne
  | step x l r hne hc ih =>
    cases h' with
    | root _ hx => exact absurd hx hne
    | step _ l2 r2 _ hc2 =>
      obtain ⟨h1, h2⟩ := ih hc2
      exact ⟨by rw [h1], h2⟩

theorem rootedAt_unique {par : List ℕ} {x r r' : ℕ}
    (h : RootedAt par x r) (h' : RootedAt par x r') : r = r' := by
  obtain ⟨l, hc⟩ := h
  obtain ⟨l', hc'⟩ := h'
  exact (chain_unique hc hc').2

theorem chain_isRoot {par : List ℕ} {x : ℕ} {l : List ℕ} {r : ℕ}
    (h : UFChain par x l r) : pget par r = r := by
  induction h with
  | root _ hx => exact hx
  | step _ _ _ _ _ ih => exact ih

theorem chain_root_mem {par : List ℕ} {x : ℕ} {l : List ℕ} {r : ℕ}
    (h : UFChain par x l r) : r ∈ l := by
  induction h with
  | root _ _ => exact List.mem_singleton.mpr rfl
  | step _ _ _ _ _ ih => exact List.mem_cons_of_mem _ ih

theorem chain_suffix {par : List ℕ} {x : ℕ} {l : List ℕ} {r y : ℕ}
    (h : UFChain par x l r) (hy : y ∈ l) : ∃ l2, UFChain par y l2 r ∧ l2 <:+ l := by
  induction h with
  | root x hx =>
    rw [List.mem_singleton.mp hy]
    exact ⟨[x], UFChain.root x hx, List.suffix_refl _⟩
  | step x l r hne hc ih =>
    rcases List.mem_cons.mp hy with rfl | hyl
    · exact ⟨y :: l, UFChain.step y l r hne hc, List.suffix_refl _⟩
    · obtain ⟨l2, hc2, hsuf⟩ := ih hyl
      exact ⟨l2, hc2, hsuf.trans (List.suffix_cons x l)⟩

theorem chain_nodup {par : List ℕ} {x : ℕ} {l : List ℕ} {r : ℕ}
    (h : UFChain par x l r) : l.Nodup := by
  induction h with
  | root _ _ => exact List.nodup_singleton _
  | step x l r hne hc ih =>
    refine List.nodup_cons.mpr ⟨?_, ih⟩
    intro hxl
    obtain ⟨l2, hc2, hsuf⟩ := chain_suffix hc hxl
    have := (chain_unique hc2 (UFChain.step x l r hne hc)).1
    have hlen := hsuf.length_le
    rw [this] at hlen
    simp at hlen

theorem chain_nodes_lt {n : ℕ} {par : List ℕ} (hlt : ∀ z, z < n → pget par z < n)
    {x : ℕ} {l : List ℕ} {r : ℕ} (h : UFChain par x l r) (hx : x < n) :
    ∀ y ∈ l, y < n := by
  induction h with
  | root _ _ =>
    intro y hy
    rw [List.mem_singleton.mp hy]
    exact hx
  | step x l r hne hc ih =>
    intro y hy
    rcases List.mem_cons.mp hy with rfl | hyl
    · exact hx
    · exact ih (hlt x hx) y hyl

theorem chain_length_le {n : ℕ} {l : List ℕ} (hnd : l.Nodup) (hmem : ∀ y ∈ l, y < n) :
    l.length ≤ n := by
  have hsub : l.toFinset ⊆ Finset.range n := by
    intro y hy
    exact Finset.mem_range.mpr (hmem y (List.mem_toFinset.mp hy))
  have := Finset.card_le_card hsub
  rw [List.toFinset_card_of_nodup hnd, Finset.card_range] at this
  exact this

theorem pget_set_self {par : List ℕ} {x r : ℕ} (hx : x < par.length) :
    pget (par.set x r) x = r := by
  unfold pget
  rw [List.getD_eq_getElem?_getD, List.getElem?_set_self hx]
  rfl

theorem pget_set_ne {par : List ℕ} {x r z : ℕ} (hz : z ≠ x) :
    pget (par.set x r) z = pget par z := by
  unfold pget
  rw [List.getD_eq_getElem?_getD, List.getElem?_set_ne (fun h => hz h.symm),
    ← List.getD_eq_getElem?_getD]

theorem findNC_correct {par : List ℕ} {x : ℕ} {l : List ℕ} {r : ℕ}
    (h : UFChain par x l r) : ∀ fuel, l.length ≤ fuel + 1 → findNC par fuel x = r := by
  induction h with
  | root x hx =>
    intro fuel _
    cases fuel with
    | zero => rfl
    | succ f =>
      unfold findNC
      rw [if_pos hx]
  | step x l r hne hc ih =>
    intro fuel hlen
    cases fuel with
    | zero =>
      obtain ⟨t, rfl⟩ := chain_head hc
      simp at hlen
    | succ f =>
      unfold findNC
      rw [if_neg hne]
      exact ih f (by simpa using hlen)

/-- Path compression preserves every node's root: setting `x` directly to
its own root `r` changes no `RootedAt` fact. -/
theorem rootedAt_set_iff {par : List ℕ} {x r : ℕ} (hx : x < par.length)
    (hroot : RootedAt par x r) :
    ∀ z s, RootedAt (par.set x r) z s ↔ RootedAt par z s := by
  have hrr : pget par r = r := by
    obtain ⟨l, hc⟩ := hroot
    exact chain_isRoot hc
  intro z s
  constructor
  · rintro ⟨l, hc⟩
    induction hc with
    | root z hz =>
      by_cases hzx : z = x
      · rw [hzx] at hz ⊢
        rw [pget_set_self hx] at hz
        rw [hz] at hroot
        exact hroot
      · rw [pget_set_ne hzx] at hz
        exact ⟨[z], UFChain.root z hz⟩
    | step z l s hne hc ih =>
      by_cases hzx : z = x
      · rw [hzx] at ih ⊢
        rw [pget_set_self hx] at ih
        have hsr : s = r := rootedAt_unique ih ⟨[r], UFChain.root r hrr⟩
        rw [hsr]
        exact hroot
      · rw [pget_set_ne hzx] at ih hne
        obtain ⟨l2, hc2⟩ := ih
        exact ⟨z :: l2, UFChain.step z l2 s hne hc2⟩
  · rintro ⟨l, hc⟩
    induction hc with
    | root z hz =>
      by_cases hzx : z = x
      · rw [hzx] at hz ⊢
        have hrx : r = x := rootedAt_unique hroot ⟨[x], UFChain.root x hz⟩
        refine ⟨[x], UFChain.root x ?_⟩
        rw [pget_set_self hx, hrx]
      · refine ⟨[z], UFChain.root z ?_⟩
        rw [pget_set_ne hzx]
        exact hz
    | step z l s hne hc ih =>
      by_cases hzx : z = x
      · rw [hzx] at hne hc ⊢
        have hxs : RootedAt par x s := ⟨x :: l, UFChain.step x l s hne hc⟩
        have hsr : s = r := rootedAt_unique hxs hroot
        rw [hsr]
        by_cases hrx : r = x
        · rw [hrx]
          refine ⟨[x], UFChain.root x ?_⟩
          rw [pget_set_self hx]
        · refine ⟨[x, r], UFChain.step x [r] r ?_ ?_⟩
          · rw [pget_set_self hx]
            exact fun hh => hrx hh
          · rw [pget_set_self hx]
            refine UFChain.root r ?_
            rw [pget_set_ne hrx]
            exact hrr
      · obtain ⟨l2, hc2⟩ := ih
        refine ⟨z :: l2, UFChain.step z l2 s ?_ ?_⟩
        · rw [pget_set_ne hzx]
          exact hne
        · rw [pget_set_ne hzx]
          exact hc2

/-- Correctness of the compressing `find`: given enough fuel (one more
than the chain length; the callers use the list length, which always
suffices) it returns the root, keeps the parent list's length and
range invariant, and preserves every node's root. -/
theorem findUF_spec {n : ℕ} :
    ∀ (fuel : ℕ) (par : List ℕ) (x : ℕ) (l : List ℕ) (r : ℕ),
    par.length = n → (∀ z, z < n → pget par z < n) →
    x < n → UFChain par x l r → l.length ≤ fuel + 1 →
    (findUF par fuel x).1 = r
    ∧ (findUF par fuel x).2.length = n
    ∧ (∀ z, z < n → pget (findUF par fuel x).2 z < n)
    ∧ (∀ z s, RootedAt (findUF par fuel x).2 z s ↔ RootedAt par z s) := by
  intro fuel
  induction fuel with
  | zero =>
    intro par x l r hlen hlt hx hc hfuel
    cases hc with
    | root _ hroot => exact ⟨rfl, hlen, hlt, fun z s => Iff.rfl⟩
    | step _ l2 _ hne hc2 =>
      obtain ⟨t, rfl⟩ := chain_head hc2
      simp at hfuel
  | succ f ih =>
    intro par x l r hlen hlt hx hc hfuel
    by_cases hx0 : pget par x = x
    · have hrx : r = x := by
        cases hc with
        | root _ _ => rfl
        | step _ _ _ hne _ => exact absurd hx0 hne
      unfold findUF
      rw [if_pos hx0]
      exact ⟨hrx.symm, hlen, hlt, fun z s => Iff.rfl⟩
    · cases hc with
      | root _ hroot => exact absurd hroot hx0
      | step _ l2 _ hne hc2 =>
        have hp : pget par x < n := hlt x hx
        have hl2 : l2.length ≤ f + 1 := by
          have := hfuel
          simp only [List.length_cons] at this
          omega
        obtain ⟨ih1, ih2, ih3, ih4⟩ := ih par (pget par x) l2 r hlen hlt hp hc2 hl2
        have hxlen : x < (findUF par f (pget par x)).2.length := by
          rw [ih2]
          exact hx
        have hxroot : RootedAt (findUF par f (pget par x)).2 x r :=
          (ih4 x r).mpr ⟨x :: l2, UFChain.step x l2 r hne hc2⟩
        have hrn : r < n :=
          chain_nodes_lt hlt (UFChain.step x l2 r hne hc2) hx r
            (chain_root_mem (UFChain.step x l2 r hne hc2))
        have hset := rootedAt_set_iff hxlen hxroot
        unfold findUF
        rw [if_neg hx0]
        dsimp only
        refine ⟨ih1, ?_, ?_, ?_⟩
        · simp only [List.length_set]
          exact ih2
        · intro z hz
          by_cases hzx : z = x
          · rw [hzx, pget_set_self hxlen, ih1]
            exact hrn
          · rw [pget_set_ne hzx]
            exact ih3 z hz
        · intro z s
          rw [ih1]
          exact (hset z s).trans (ih4 z s)

/-- Linking one root under another: every node whose root was `px` now
has root `py`; all other roots are unchanged. -/
theorem rootedAt_link_iff {par2 : List ℕ} {px py : ℕ} (hpx : px < par2.length)
    (hpxr : pget par2 px = px) (hpyr : pget par2 py = py) (hne : px ≠ py) :
    ∀ z s, RootedAt (par2.set px py) z s ↔
      ∃ t, RootedAt par2 z t ∧ s = (if t = px then py else t) := by
  intro z s
  constructor
  · rintro ⟨l, hc⟩
    induction hc with
    | root z hz =>
      by_cases hzx : z = px
      · rw [hzx] at hz
        rw [pget_set_self hpx] at hz
        exact absurd hz.symm hne
      · rw [pget_set_ne hzx] at hz
        refine ⟨z, ⟨[z], UFChain.root z hz⟩, ?_⟩
        rw [if_neg hzx]
    | step z l s hne2 hc ih =>
      by_cases hzx : z = px
      · rw [hzx] at ih ⊢
        rw [pget_set_self hpx] at ih
        obtain ⟨t, hty, hst⟩ := ih
        have hty2 : t = py := rootedAt_unique hty ⟨[py], UFChain.root py hpyr⟩
        refine ⟨px, ⟨[px], UFChain.root px hpxr⟩, ?_⟩
        rw [if_pos rfl, hst, hty2]
        split <;> rfl
      · rw [pget_set_ne hzx] at ih hne2
        obtain ⟨t, ht, hst⟩ := ih
        obtain ⟨l2, hc2⟩ := ht
        exact ⟨t, ⟨z :: l2, UFChain.step z l2 t hne2 hc2⟩, hst⟩
  · rintro ⟨t, ⟨l, hc⟩, rfl⟩
    induction hc with
    | root z hz =>
      by_cases hzx : z = px
      · rw [hzx] at hz ⊢
        have hzpx : z = px := hzx
        rw [if_pos (by rw [← hz])]
        refine ⟨[px, py], UFChain.step px [py] py ?_ ?_⟩
        · rw [pget_set_self hpx]
          exact fun hh => hne hh.symm
        · rw [pget_set_self hpx]
          refine UFChain.root py ?_
          rw [pget_set_ne (fun hh => hne hh.symm)]
          exact hpyr
      · rw [if_neg (by rw [← hz] at hzx ⊢; exact hzx)]
        refine ⟨[z], UFChain.root z ?_⟩
        rw [pget_set_ne hzx]
        exact hz
    | step z l t hne2 hc ih =>
      by_cases hzx : z = px
      · exact absurd (hzx ▸ hpxr) hne2
      · obtain ⟨l2, hc2⟩ := ih
        refine ⟨z :: l2, UFChain.step z l2 _ ?_ ?_⟩
        · rw [pget_set_ne hzx]
          exact hne2
        · rw [pget_set_ne hzx]
          exact hc2

theorem rootedAt_self_isRoot {par : List ℕ} {z : ℕ} (h : RootedAt par z z) :
    pget par z = z := by
  obtain ⟨l, hc⟩ := h
  cases hc with
  | root _ hz => exact hz
  | step _ l2 _ hne hc2 =>
    exfalso
    have hmem : z ∈ l2 := chain_root_mem hc2
    have hnd := chain_nodup (UFChain.step z l2 z hne hc2)
    exact (List.nodup_cons.mp hnd).1 hmem

theorem sameRoot_congr {par par' : List ℕ}
    (h : ∀ z s, RootedAt par' z s ↔ RootedAt par z s) (a b : ℕ) :
    SameRoot par' a b ↔ SameRoot par a b := by
  unfold SameRoot
  constructor
  · rintro ⟨r, ha, hb⟩
    exact ⟨r, (h a r).mp ha, (h b r).mp hb⟩
  · rintro ⟨r, ha, hb⟩
    exact ⟨r, (h a r).mpr ha, (h b r).mpr hb⟩

theorem sameRoot_iff_rootedAt {par : List ℕ} {a x r1 : ℕ} (hx : RootedAt par x r1) :
    SameRoot par a x ↔ RootedAt par a r1 := by
  constructor
  · rintro ⟨r, ha, hx2⟩
    rw [← rootedAt_unique hx2 hx]
    exact ha
  · intro ha
    exact ⟨r1, ha, hx⟩

theorem pget_range (n x : ℕ) : pget (List.range n) x = x := by
  unfold pget
  rw [List.getD_eq_getElem?_getD]
  by_cases hx : x < n
  · rw [List.getElem?_range hx]
    rfl
  · rw [List.getElem?_eq_none (by simpa using hx)]
    rfl

theorem UF_range (n : ℕ) : UF n (List.range n) := by
  refine ⟨List.length_range n, ?_, ?_⟩
  · intro x hx
    rw [pget_range]
    exact hx
  · intro x _
    exact ⟨x, [x], UFChain.root x (pget_range n x)⟩

theorem sameRoot_range {n : ℕ} (a b : ℕ) :
    SameRoot (List.range n) a b ↔ a = b := by
  constructor
  · rintro ⟨r, ha, hb⟩
    have h1 : r = a := rootedAt_unique ha ⟨[a], UFChain.root a (pget_range n a)⟩
    have h2 : r = b := rootedAt_unique hb ⟨[b], UFChain.root b (pget_range n b)⟩
    rw [← h1, h2]
  · rintro rfl
    exact ⟨a, ⟨[a], UFChain.root a (pget_range n a)⟩, ⟨[a], UFChain.root a (pget_range n a)⟩⟩

/-- Bundled correctness of one `find` call at the fuel the code uses. -/
theorem findUF_package {n : ℕ} {par : List ℕ} (h : UF n par) (x : ℕ) (hx : x < n) :
    RootedAt par x (findUF par par.length x).1
    ∧ UF n (findUF par par.length x).2
    ∧ (∀ z s, RootedAt (findUF par par.length x).2 z s ↔ RootedAt par z s) := by
  obtain ⟨hlen, hlt, hex⟩ := h
  obtain ⟨r, l, hc⟩ := hex x hx
  have hnodes := chain_nodes_lt hlt hc hx
  have hlength : l.length ≤ par.length + 1 := by
    rw [hlen]
    exact le_trans (chain_length_le (chain_nodup hc) hnodes) (Nat.le_succ n)
  obtain ⟨h1, h2, h3, h4⟩ := findUF_spec par.length par x l r hlen hlt hx hc hlength
  refine ⟨h1 ▸ ⟨l, hc⟩, ⟨h2, h3, ?_⟩, h4⟩
  intro z hz
  obtain ⟨s, hs⟩ := hex z hz
  exact ⟨s, (h4 z s).mpr hs⟩

/-- Effect of one `union(x, y)` call: the invariant is preserved and the
common-root relation becomes the one extended by joining the classes of
`x` and `y`. -/
theorem unionUF_spec {n : ℕ} {par : List ℕ} (h : UF n par) (x y : ℕ)
    (hx : x < n) (hy : y < n) :
    UF n (unionUF par x y)
    ∧ ∀ a b, a < n → b < n →
      (SameRoot (unionUF par x y) a b ↔
        (SameRoot par a b ∨ (SameRoot par a x ∧ SameRoot par b y)
          ∨ (SameRoot par a y ∧ SameRoot par b x))) := by
  obtain ⟨hx1, hufx, hiffx⟩ := findUF_package h x hx
  set par1 := (findUF par par.length x).2 with hpar1
  set r1 := (findUF par par.length x).1 with hr1
  obtain ⟨hy1, hufy, hiffy⟩ := findUF_package hufx y hy
  have hpar1len : par1.length = n := hufx.1
  set par2 := (findUF par1 par1.length y).2 with hpar2
  set r2 := (findUF par1 par1.length y).1 with hr2
  have hiff : ∀ z s, RootedAt par2 z s ↔ RootedAt par z s :=
    fun z s => (hiffy z s).trans (hiffx z s)
  have hyroot : RootedAt par y r2 := (hiffx y r2).mp hy1
  have hr1root : pget par2 r1 = r1 := by
    apply rootedAt_self_isRoot
    refine (hiff r1 r1).mpr ?_
    obtain ⟨l, hc⟩ := hx1
    exact ⟨[r1], UFChain.root r1 (chain_isRoot hc)⟩
  have hr2root : pget par2 r2 = r2 := by
    apply rootedAt_self_isRoot
    refine (hiffy r2 r2).mpr ?_
    obtain ⟨l, hc⟩ := hy1
    exact ⟨[r2], UFChain.root r2 (chain_isRoot hc)⟩
  have hr1n : r1 < n := by
    obtain ⟨l, hc⟩ := hx1
    exact chain_nodes_lt h.2.1 hc hx r1 (chain_root_mem hc)
  have hr2n : r2 < n := by
    obtain ⟨l, hc⟩ := hy1
    exact chain_nodes_lt hufx.2.1 hc hy r2 (chain_root_mem hc)
  have hresult : unionUF par x y = if r1 ≠ r2 then par2.set r1 r2 else par2 := by
    unfold unionUF
    rfl
  have hsame2 : ∀ a b, SameRoot par2 a b ↔ SameRoot par a b := sameRoot_congr hiff
  have habsorb : ∀ a b, a < n → b < n →
      ((SameRoot par a b ∨ (SameRoot par a x ∧ SameRoot par b y)
          ∨ (SameRoot par a y ∧ SameRoot par b x)) ↔
        (∃ ra rb, RootedAt par a ra ∧ RootedAt par b rb ∧
          (ra = rb ∨ (ra = r1 ∧ rb = r2) ∨ (ra = r2 ∧ rb = r1)))) := by
    intro a b ha hb
    obtain ⟨ra, hra⟩ := h.2.2 a ha
    obtain ⟨rb, hrb⟩ := h.2.2 b hb
    constructor
    · rintro (⟨r, h1, h2⟩ | ⟨h1, h2⟩ | ⟨h1, h2⟩)
      · exact ⟨r, r, h1, h2, Or.inl rfl⟩
      · exact ⟨r1, r2, (sameRoot_iff_rootedAt hx1).mp h1,
          (sameRoot_iff_rootedAt hyroot).mp h2, Or.inr (Or.inl ⟨rfl, rfl⟩)⟩
      · exact ⟨r2, r1, (sameRoot_iff_rootedAt hyroot).mp h1,
          (sameRoot_iff_rootedAt hx1).mp h2, Or.inr (Or.inr ⟨rfl, rfl⟩)⟩
    · rintro ⟨ra2, rb2, h1, h2, (rfl | ⟨rfl, rfl⟩ | ⟨rfl, rfl⟩)⟩
      · exact Or.inl ⟨ra2, h1, h2⟩
      · exact Or.inr (Or.inl ⟨(sameRoot_iff_rootedAt hx1).mpr h1,
          (sameRoot_iff_rootedAt hyroot).mpr h2⟩)
      · exact Or.inr (Or.inr ⟨(sameRoot_iff_rootedAt hyroot).mpr h1,
          (sameRoot_iff_rootedAt hx1).mpr h2⟩)
  by_cases hr : r1 = r2
  · rw [hresult, if_neg (by simpa using hr)]
    refine ⟨hufy, ?_⟩
    intro a b ha hb
    rw [hsame2 a b, habsorb a b ha hb]
    obtain ⟨ra, hra⟩ := h.2.2 a ha
    obtain ⟨rb, hrb⟩ := h.2.2 b hb
    constructor
    · rintro ⟨r, h1, h2⟩
      exact ⟨r, r, h1, h2, Or.inl rfl⟩
    · rintro ⟨ra2, rb2, h1, h2, (rfl | ⟨rfl, rfl⟩ | ⟨rfl, rfl⟩)⟩
      · exact ⟨ra2, h1, h2⟩
      · exact ⟨r1, h1, hr ▸ h2⟩
      · exact ⟨r2, h1, hr ▸ h2⟩
  · rw [hresult, if_pos (by simpa using hr)]
    have hr1len : r1 < par2.length := by
      rw [hufy.1]
      exact hr1n
    have hlink := rootedAt_link_iff hr1len hr1root hr2root hr
    have hufnew : UF n (par2.set r1 r2) := by
      refine ⟨by rw [List.length_set]; exact hufy.1, ?_, ?_⟩
      · intro z hz
        by_cases hzr : z = r1
        · rw [hzr, pget_set_self hr1len]
          exact hr2n
        · rw [pget_set_ne hzr]
          exact hufy.2.1 z hz
      · intro z hz
        obtain ⟨t, ht⟩ := hufy.2.2 z hz
        exact ⟨if t = r1 then r2 else t, (hlink z _).mpr ⟨t, ht, rfl⟩⟩
    refine ⟨hufnew, ?_⟩
    intro a b ha hb
    rw [habsorb a b ha hb]
    constructor
    · rintro ⟨s, hsa, hsb⟩
      obtain ⟨ta, hta, hsta⟩ := (hlink a s).mp hsa
      obtain ⟨tb, htb, hstb⟩ := (hlink b s).mp hsb
      refine ⟨ta, tb, (hiff a ta).mp hta, (hiff b tb).mp htb, ?_⟩
      rw [hsta] at hstb
      by_cases hta1 : ta = r1 <;> by_cases htb1 : tb = r1
      · exact Or.inl (hta1.trans htb1.symm)
      · rw [if_pos hta1, if_neg htb1] at hstb
        exact Or.inr (Or.inl ⟨hta1, hstb.symm⟩)
      · rw [if_neg hta1, if_pos htb1] at hstb
        exact Or.inr (Or.inr ⟨hstb, htb1⟩)
      · rw [if_neg hta1, if_neg htb1] at hstb
        exact Or.inl hstb
    · rintro ⟨ra, rb, hra, hrb, hcase⟩
      have hra2 : RootedAt par2 a ra := (hiff a ra).mpr hra
      have hrb2 : RootedAt par2 b rb := (hiff b rb).mpr hrb
      refine ⟨if ra = r1 then r2 else ra, (hlink a _).mpr ⟨ra, hra2, rfl⟩, ?_⟩
      have hgoal : (if ra = r1 then r2 else ra) = (if rb = r1 then r2 else rb) := by
        rcases hcase with rfl | ⟨rfl, rfl⟩ | ⟨rfl, rfl⟩
        · rfl
        · rw [if_pos rfl, if_neg (fun hh => hr hh.symm)]
        · rw [if_neg (fun hh => hr hh.symm), if_pos rfl]
      rw [hgoal]
      exact (hlink b _).mpr ⟨rb, hrb2, rfl⟩

theorem pget_out {n : ℕ} {par : List ℕ} (hlen : par.length = n) {u : ℕ} (hu : n ≤ u) :
    pget par u = u := by
  unfold pget
  rw [List.getD_eq_getElem?_getD, List.getElem?_eq_none (by omega)]
  rfl

theorem rooted_total {n : ℕ} {par : List ℕ} (h : UF n par) (u : ℕ) :
    ∃ r, RootedAt par u r := by
  by_cases hu : u < n
  · exact h.2.2 u hu
  · exact ⟨u, [u], UFChain.root u (pget_out h.1 (by omega))⟩

/-- Outside the first `n` indices every node is its own root, so a common
root there forces equality. -/
theorem sameRoot_high {n : ℕ} {par : List ℕ} (h : UF n par) {u v : ℕ}
    (hnot : ¬(u < n ∧ v < n)) (hs : SameRoot par u v) : u = v := by
  obtain ⟨r, ⟨lu, hu⟩, ⟨lv, hv⟩⟩ := hs
  have hroot_high : ∀ w, n ≤ w → ∀ l s, UFChain par w l s → s = w := by
    intro w hw l s hc
    exact (chain_unique hc (UFChain.root w (pget_out h.1 hw))).2
  have hroot_low : ∀ w, w < n → ∀ l s, UFChain par w l s → s < n := by
    intro w hw l s hc
    exact chain_nodes_lt h.2.1 hc hw s (chain_root_mem hc)
  by_cases hun : u < n
  · by_cases hvn : v < n
    · exact absurd ⟨hun, hvn⟩ hnot
    · have h1 : r < n := hroot_low u hun lu r hu
      have h2 : r = v := hroot_high v (by omega) lv r hv
      omega
  · have h1 : r = u := hroot_high u (by omega) lu r hu
    by_cases hvn : v < n
    · have h2 : r < n := hroot_low v hvn lv r hv
      omega
    · have h2 : r = v := hroot_high v (by omega) lv r hv
      omega

theorem sameRoot_refl {n : ℕ} {par : List ℕ} (h : UF n par) (u : ℕ) :
    SameRoot par u u := by
  obtain ⟨r, hr⟩ := rooted_total h u
  exact ⟨r, hr, hr⟩

theorem sameRoot_symm {par : List ℕ} {u v : ℕ} (h : SameRoot par u v) :
    SameRoot par v u := by
  obtain ⟨r, h1, h2⟩ := h
  exact ⟨r, h2, h1⟩

theorem sameRoot_trans {par : List ℕ} {u v w : ℕ} (h1 : SameRoot par u v)
    (h2 : SameRoot par v w) : SameRoot par u w := by
  obtain ⟨r, ha, hb⟩ := h1
  obtain ⟨s, hc, hd⟩ := h2
  rw [rootedAt_unique hb hc] at ha
  exact ⟨s, ha, hd⟩

theorem eqvGen_mono2 {F G : ℕ → ℕ → Prop}
    (h : ∀ u v, F u v → Relation.EqvGen G u v) {a b : ℕ}
    (hab : Relation.EqvGen F a b) : Relation.EqvGen G a b := by
  induction hab with
  | rel u v huv => exact h u v huv
  | refl u => exact Relation.EqvGen.refl u
  | symm u v _ ih => exact Relation.EqvGen.symm u v ih
  | trans u v w _ _ ih1 ih2 => exact Relation.EqvGen.trans u v w ih1 ih2

/-- A union was performed for the processed pair `(u, v)`. -/
def Linked (adj : ℕ → ℕ → Bool) (ps : List (ℕ × ℕ)) (u v : ℕ) : Prop :=
  (u, v) ∈ ps ∧ adj u v = true

/-- Folding `union` over a pair list turns the common-root relation into
the equivalence closure of the initial relation extended by the linked
pairs. -/
theorem foldPairs_spec {n : ℕ} (adj : ℕ → ℕ → Bool) :
    ∀ (ps : List (ℕ × ℕ)) (par : List ℕ), UF n par →
    (∀ p ∈ ps, p.1 < n ∧ p.2 < n) →
    UF n (foldPairs adj ps par)
    ∧ ∀ a b, a < n → b < n →
      (SameRoot (foldPairs adj ps par) a b ↔
        Relation.EqvGen (fun u v => SameRoot par u v ∨ Linked adj ps u v) a b) := by
  intro ps
  induction ps with
  | nil =>
    intro par h _
    refine ⟨h, ?_⟩
    intro a b ha hb
    clear ha hb
    constructor
    · intro hs
      exact Relation.EqvGen.rel a b (Or.inl hs)
    · intro he
      induction he with
      | rel u v huv =>
        rcases huv with hs | hl
        · exact hs
        · exact absurd hl.1 (List.not_mem_nil _)
      | refl u => exact sameRoot_refl h u
      | symm u v _ ih => exact sameRoot_symm ih
      | trans u v w _ _ ih1 ih2 => exact sameRoot_trans ih1 ih2
  | cons hdp ps ih =>
    intro par h hbound
    obtain ⟨i, j⟩ := hdp
    have hij : i < n ∧ j < n := hbound (i, j) (List.mem_cons_self _ _)
    have hbound2 : ∀ p ∈ ps, p.1 < n ∧ p.2 < n :=
      fun p hp => hbound p (List.mem_cons_of_mem _ hp)
    by_cases hadj : adj i j = true
    · have hfold : foldPairs adj ((i, j) :: ps) par = foldPairs adj ps (unionUF par i j) := by
        unfold foldPairs
        rw [List.foldl_cons]
        dsimp only
        rw [if_pos hadj]
      rw [hfold]
      obtain ⟨huf, hchar⟩ := unionUF_spec h i j hij.1 hij.2
      obtain ⟨huf2, hchar2⟩ := ih (unionUF par i j) huf hbound2
      refine ⟨huf2, ?_⟩
      intro a b ha hb
      rw [hchar2 a b ha hb]
      constructor
      · refine eqvGen_mono2 ?_
        intro u v huv
        rcases huv with hs | hl
        · by_cases huv2 : u < n ∧ v < n
          · rcases (hchar u v huv2.1 huv2.2).mp hs with hs2 | ⟨h1, h2⟩ | ⟨h1, h2⟩
            · exact Relation.EqvGen.rel u v (Or.inl hs2)
            · refine Relation.EqvGen.trans u i v (Relation.EqvGen.rel u i (Or.inl h1)) ?_
              refine Relation.EqvGen.trans i j v
                (Relation.EqvGen.rel i j (Or.inr ⟨List.mem_cons_self _ _, hadj⟩)) ?_
              exact Relation.EqvGen.symm v j (Relation.EqvGen.rel v j (Or.inl h2))
            · refine Relation.EqvGen.trans u j v (Relation.EqvGen.rel u j (Or.inl h1)) ?_
              refine Relation.EqvGen.trans j i v
                (Relation.EqvGen.symm i j
                  (Relation.EqvGen.rel i j (Or.inr ⟨List.mem_cons_self _ _, hadj⟩))) ?_
              exact Relation.EqvGen.symm v i (Relation.EqvGen.rel v i (Or.inl h2))
          · rw [sameRoot_high huf huv2 hs]
            exact Relation.EqvGen.refl v
        · exact Relation.EqvGen.rel u v (Or.inr ⟨List.mem_cons_of_mem _ hl.1, hl.2⟩)
      · refine eqvGen_mono2 ?_
        intro u v huv
        rcases huv with hs | hl
        · by_cases huv2 : u < n ∧ v < n
          · exact Relation.EqvGen.rel u v
              (Or.inl ((hchar u v huv2.1 huv2.2).mpr (Or.inl hs)))
          · rw [sameRoot_high h huv2 hs]
            exact Relation.EqvGen.refl v
        · rcases List.mem_cons.mp hl.1 with heq | hmem
          · obtain ⟨rfl, rfl⟩ := Prod.mk.injEq _ _ _ _ ▸ heq
            refine Relation.EqvGen.rel u v (Or.inl ?_)
            refine (hchar u v hij.1 hij.2).mpr ?_
            exact Or.inr (Or.inl ⟨sameRoot_refl h u, sameRoot_refl h v⟩)
          · exact Relation.EqvGen.rel u v (Or.inr ⟨hmem, hl.2⟩)
    · have hfold : foldPairs adj ((i, j) :: ps) par = foldPairs adj ps par := by
        unfold foldPairs
        rw [List.foldl_cons]
        dsimp only
        rw [if_neg hadj]
      rw [hfold]
      obtain ⟨huf2, hchar2⟩ := ih par h hbound2
      refine ⟨huf2, ?_⟩
      intro a b ha hb
      rw [hchar2 a b ha hb]
      constructor
      · refine eqvGen_mono2 ?_
        intro u v huv
        rcases huv with hs | hl
        · exact Relation.EqvGen.rel u v (Or.inl hs)
        · exact Relation.EqvGen.rel u v (Or.inr ⟨List.mem_cons_of_mem _ hl.1, hl.2⟩)
      · refine eqvGen_mono2 ?_
        intro u v huv
        rcases huv with hs | hl
        · exact Relation.EqvGen.rel u v (Or.inl hs)
        · rcases List.mem_cons.mp hl.1 with heq | hmem
          · obtain ⟨rfl, rfl⟩ := Prod.mk.injEq _ _ _ _ ▸ heq
            exact absurd hl.2 hadj
          · exact Relation.EqvGen.rel u v (Or.inr ⟨hmem, hl.2⟩)

/-- The reference form of the insertion-ordered grouping: fold the
key-append over `0..k-1` with the key function `f`. -/
def specGroups (f : ℕ → ℕ) (k : ℕ) : List (ℕ × List ℕ) :=
  (List.range k).foldl (fun gs i => addToGroups gs (f i) i) []

/-- `addToGroups` either appends a fresh key at the end or appends the
value to the unique existing entry of that key. -/
theorem addToGroups_cases {α : Type} (gs : List (ℕ × List α)) (r : ℕ) (v : α) :
    (r ∉ gs.map (fun e => e.1) ∧ addToGroups gs r v = gs ++ [(r, [v])])
    ∨ (∃ pre vs post, gs = pre ++ (r, vs) :: post ∧ r ∉ pre.map (fun e => e.1) ∧
        addToGroups gs r v = pre ++ (r, vs ++ [v]) :: post) := by
  induction gs with
  | nil => exact Or.inl ⟨List.not_mem_nil r, rfl⟩
  | cons e rest ih =>
    obtain ⟨k, vs⟩ := e
    by_cases hk : k = r
    · refine Or.inr ⟨[], vs, rest, ?_, List.not_mem_nil r, ?_⟩
      · rw [hk]
        rfl
      · unfold addToGroups
        rw [if_pos hk, hk]
        rfl
    · rcases ih with ⟨hnot, heq⟩ | ⟨pre, vs2, post, hsplit, hnotpre, heq⟩
      · refine Or.inl ⟨?_, ?_⟩
        · simp only [List.map_cons, List.mem_cons]
          rintro (hkr | hmem)
          · exact hk hkr.symm
          · exact hnot hmem
        · unfold addToGroups
          rw [if_neg hk, heq]
          rfl
      · refine Or.inr ⟨(k, vs) :: pre, vs2, post, ?_, ?_, ?_⟩
        · rw [List.cons_append, ← hsplit]
        · simp only [List.map_cons, List.mem_cons]
          rintro (hkr | hmem)
          · exact hk hkr.symm
          · exact hnotpre hmem
        · unfold addToGroups
          rw [if_neg hk, heq]
          rfl

/-- Characterization of `specGroups`: entries hold exactly the indices
below `k` with the matching key, in increasing order; keys are distinct;
every index below `k` is covered. -/
theorem specGroups_char (f : ℕ → ℕ) (k : ℕ) :
    (∀ e ∈ specGroups f k, e.2 = (List.range k).filter (fun i => f i = e.1) ∧ e.2 ≠ [])
    ∧ ((specGroups f k).map (fun e => e.1)).Nodup
    ∧ (∀ i, i < k → ∃ e ∈ specGroups f k, e.1 = f i) := by
  induction k with
  | zero =>
    refine ⟨?_, ?_, ?_⟩
    · intro e he
      exact absurd he (List.not_mem_nil e)
    · exact List.nodup_nil
    · intro i hi
      omega
  | succ k ih =>
    obtain ⟨ih1, ih2, ih3⟩ := ih
    have hstep : specGroups f (k + 1) = addToGroups (specGroups f k) (f k) k := by
      unfold specGroups
      rw [List.range_succ, List.foldl_append]
      rfl
    have hfilter : ∀ r, (List.range (k + 1)).filter (fun i => f i = r)
        = (List.range k).filter (fun i => f i = r) ++ (if f k = r then [k] else []) := by
      intro r
      rw [List.range_succ, List.filter_append]
      congr 1
      by_cases hr : f k = r
      · rw [List.filter_cons, if_pos (by simpa using hr), if_pos hr]
        rfl
      · rw [List.filter_cons, if_neg (by simpa using hr), if_neg hr]
        rfl
    rcases addToGroups_cases (specGroups f k) (f k) k with
      ⟨hnot, heq⟩ | ⟨pre, vs, post, hsplit, hnotpre, heq⟩
    · rw [hstep, heq]
      refine ⟨?_, ?_, ?_⟩
      · intro e he
        rcases List.mem_append.mp he with hmem | hmem
        · obtain ⟨hfil, hne⟩ := ih1 e hmem
          refine ⟨?_, hne⟩
          rw [hfilter e.1, if_neg ?_, List.append_nil]
          · exact hfil
          · intro hfk
            exact hnot (hfk ▸ List.mem_map.mpr ⟨e, hmem, rfl⟩)
        · rw [List.mem_singleton.mp hmem]
          refine ⟨?_, by simp⟩
          dsimp only
          rw [hfilter (f k), if_pos rfl]
          have hempty : (List.range k).filter (fun i => f i = f k) = [] := by
            rw [List.filter_eq_nil_iff]
            intro i hi hfi
            have hfi2 : f i = f k := by simpa using hfi
            obtain ⟨e2, he2, hk2⟩ := ih3 i (List.mem_range.mp hi)
            refine hnot ?_
            rw [← hfi2, ← hk2]
            exact List.mem_map.mpr ⟨e2, he2, rfl⟩
          rw [hempty]
          rfl
      · rw [List.map_append]
        simp only [List.map_cons, List.map_nil]
        rw [List.nodup_append]
        exact ⟨ih2, List.nodup_singleton _, by
          intro a ha hb
          rw [List.mem_singleton.mp hb] at ha
          exact hnot ha⟩
      · intro i hi
        rcases Nat.lt_succ_iff_lt_or_eq.mp hi with hik | rfl
        · obtain ⟨e, he, hke⟩ := ih3 i hik
          exact ⟨e, List.mem_append.mpr (Or.inl he), hke⟩
        · exact ⟨(f i, [i]), List.mem_append.mpr (Or.inr (List.mem_singleton.mpr rfl)), rfl⟩
    · rw [hstep, heq]
      have hkey_vs : (f k, vs) ∈ specGroups f k := by
        rw [hsplit]
        exact List.mem_append.mpr (Or.inr (List.mem_cons_self _ _))
      have hvs := ih1 (f k, vs) hkey_vs
      have hkeys_old : (specGroups f k).map (fun e => e.1)
          = pre.map (fun e => e.1) ++ f k :: post.map (fun e => e.1) := by
        rw [hsplit]
        simp [List.map_append]
      have hkeys_nodup := ih2
      rw [hkeys_old] at hkeys_nodup
      have hfk_not_pre : f k ∉ pre.map (fun e => e.1) := by
        rcases List.nodup_append.mp hkeys_nodup with ⟨_, _, hdisj⟩
        intro hmem
        exact hdisj hmem (List.mem_cons_self _ _)
      have hfk_not_post : f k ∉ post.map (fun e => e.1) := by
        rcases List.nodup_append.mp hkeys_nodup with ⟨_, hnd2, _⟩
        exact (List.nodup_cons.mp hnd2).1
      have hvs_fil : vs = (List.range k).filter (fun i => f i = f k) := (hvs).1
      refine ⟨?_, ?_, ?_⟩
      · intro e he
        rcases List.mem_append.mp he with hpre | hrest
        · have hein : e ∈ specGroups f k := by
            rw [hsplit]
            exact List.mem_append.mpr (Or.inl hpre)
          obtain ⟨hfil, hne⟩ := ih1 e hein
          refine ⟨?_, hne⟩
          rw [hfilter e.1, if_neg ?_, List.append_nil]
          · exact hfil
          · intro hfke
            exact hfk_not_pre (hfke ▸ List.mem_map.mpr ⟨e, hpre, rfl⟩)
        · rcases List.mem_cons.mp hrest with rfl | hpost
          · refine ⟨?_, by simp⟩
            dsimp only
            rw [hfilter (f k), if_pos rfl, ← hvs_fil]
          · have hein : e ∈ specGroups f k := by
              rw [hsplit]
              exact List.mem_append.mpr (Or.inr (List.mem_cons_of_mem _ hpost))
            obtain ⟨hfil, hne⟩ := ih1 e hein
            refine ⟨?_, hne⟩
            rw [hfilter e.1, if_neg ?_, List.append_nil]
            · exact hfil
            · intro hfke
              exact hfk_not_post (hfke ▸ List.mem_map.mpr ⟨e, hpost, rfl⟩)
      · have : (pre ++ (f k, vs ++ [k]) :: post).map (fun e => e.1)
            = pre.map (fun e => e.1) ++ f k :: post.map (fun e => e.1) := by
          simp [List.map_append]
        rw [this]
        exact hkeys_nodup
      · intro i hi
        rcases Nat.lt_succ_iff_lt_or_eq.mp hi with hik | rfl
        · obtain ⟨e, he, hke⟩ := ih3 i hik
          rw [hsplit] at he
          rcases List.mem_append.mp he with hpre | hrest
          · exact ⟨e, List.mem_append.mpr (Or.inl hpre), hke⟩
          · rcases List.mem_cons.mp hrest with rfl | hpost
            · exact ⟨(f k, vs ++ [k]),
                List.mem_append.mpr (Or.inr (List.mem_cons_self _ _)), hke⟩
            · exact ⟨e, List.mem_append.mpr (Or.inr (List.mem_cons_of_mem _ hpost)), hke⟩
        · exact ⟨(f i, vs ++ [i]),
            List.mem_append.mpr (Or.inr (List.mem_cons_self _ _)), rfl⟩

/-- The root of a node, read without compression at the fuel the code
uses. -/
def rootD (par : List ℕ) (x : ℕ) : ℕ := findNC par par.length x

theorem rootD_correct {n : ℕ} {par : List ℕ} (h : UF n par) {x : ℕ} (hx : x < n) :
    RootedAt par x (rootD par x) := by
  obtain ⟨r, l, hc⟩ := h.2.2 x hx
  have hlength : l.length ≤ par.length + 1 := by
    rw [h.1]
    exact le_trans
      (chain_length_le (chain_nodup hc) (chain_nodes_lt h.2.1 hc hx)) (Nat.le_succ n)
  have := findNC_correct hc par.length hlength
  unfold rootD
  rw [this]
  exact ⟨l, hc⟩

theorem sameRoot_iff_rootD {n : ℕ} {par : List ℕ} (h : UF n par) {i j : ℕ}
    (hi : i < n) (hj : j < n) :
    SameRoot par i j ↔ rootD par i = rootD par j := by
  constructor
  · rintro ⟨r, hri, hrj⟩
    rw [← rootedAt_unique hri (rootD_correct h hi),
      ← rootedAt_unique hrj (rootD_correct h hj)]
  · intro heq
    exact ⟨rootD par i, rootD_correct h hi, heq ▸ rootD_correct h hj⟩

/-- The collection loop produces exactly the insertion-ordered grouping
by the (stable) root function. -/
theorem collectGroups_snd {n : ℕ} {par : List ℕ} (h : UF n par) :
    (collectGroups par n).2 = specGroups (rootD par) n := by
  suffices haux : ∀ k, k ≤ n →
      UF n ((List.range k).foldl
        (fun st idx =>
          let f := findUF st.1 st.1.length idx
          (f.2, addToGroups st.2 f.1 idx)) (par, [])).1
      ∧ (∀ z s, RootedAt ((List.range k).foldl
          (fun st idx =>
            let f := findUF st.1 st.1.length idx
            (f.2, addToGroups st.2 f.1 idx)) (par, [])).1 z s ↔ RootedAt par z s)
      ∧ ((List.range k).foldl
          (fun st idx =>
            let f := findUF st.1 st.1.length idx
            (f.2, addToGroups st.2 f.1 idx)) (par, [])).2 = specGroups (rootD par) k by
    exact (haux n (le_refl n)).2.2
  intro k
  induction k with
  | zero =>
    intro _
    exact ⟨h, fun z s => Iff.rfl, rfl⟩
  | succ k ih =>
    intro hk
    obtain ⟨ih1, ih2, ih3⟩ := ih (by omega)
    rw [List.range_succ, List.foldl_append, List.foldl_cons, List.foldl_nil]
    dsimp only
    obtain ⟨hroot, huf, hiff⟩ := findUF_package ih1 k (by omega)
    refine ⟨huf, ?_, ?_⟩
    · intro z s
      exact (hiff z s).trans (ih2 z s)
    · have hfst : (findUF ((List.range k).foldl
          (fun st idx =>
            let f := findUF st.1 st.1.length idx
            (f.2, addToGroups st.2 f.1 idx)) (par, [])).1
          ((List.range k).foldl
            (fun st idx =>
              let f := findUF st.1 st.1.length idx
              (f.2, addToGroups st.2 f.1 idx)) (par, [])).1.length k).1
          = rootD par k := by
        apply rootedAt_unique ((ih2 _ _).mp hroot)
        exact rootD_correct h (by omega)
      rw [hfst, ih3]
      have hstep : specGroups (rootD par) (k + 1)
          = addToGroups (specGroups (rootD par) k) (rootD par k) k := by
        unfold specGroups
        rw [List.range_succ, List.foldl_append]
        rfl
      rw [hstep]

theorem allPairs_mem (n u v : ℕ) : (u, v) ∈ allPairs n ↔ u < v ∧ v < n := by
  unfold allPairs
  rw [List.mem_flatMap]
  constructor
  · rintro ⟨i, hi, hmem⟩
    rcases List.mem_map.mp hmem with ⟨j, hj, hj2⟩
    obtain ⟨rfl, rfl⟩ := Prod.mk.injEq _ _ _ _ ▸ hj2.symm
    rcases List.mem_filter.mp hj with ⟨hjr, hij⟩
    exact ⟨by simpa using hij, List.mem_range.mp hjr⟩
  · rintro ⟨huv, hv⟩
    refine ⟨u, List.mem_range.mpr (by omega), ?_⟩
    refine List.mem_map.mpr ⟨v, ?_, rfl⟩
    exact List.mem_filter.mpr ⟨List.mem_range.mpr hv, by simpa using huv⟩

theorem eqvGen_absorb_eq {R : ℕ → ℕ → Prop} (a b : ℕ) :
    Relation.EqvGen (fun u v => u = v ∨ R u v) a b ↔ Relation.EqvGen R a b := by
  constructor
  · refine eqvGen_mono2 ?_
    rintro u v (rfl | hr)
    · exact Relation.EqvGen.refl u
    · exact Relation.EqvGen.rel u v hr
  · refine eqvGen_mono2 ?_
    intro u v hr
    exact Relation.EqvGen.rel u v (Or.inr hr)

theorem eqvGen_congr_gen {F G : ℕ → ℕ → Prop} (h : ∀ u v, F u v ↔ G u v) (a b : ℕ) :
    Relation.EqvGen F a b ↔ Relation.EqvGen G a b := by
  constructor
  · exact eqvGen_mono2 (fun u v hf => Relation.EqvGen.rel u v ((h u v).mp hf))
  · exact eqvGen_mono2 (fun u v hg => Relation.EqvGen.rel u v ((h u v).mpr hg))

/-- Full characterization of `groupIndices`: its groups form a partition
of `0..n-1` (the concatenation is a permutation of `range n`), each group
lists its members in increasing input order (a sublist of `range n`), and
two indices share a group exactly when they are related by the
equivalence closure of the pairwise adjacency relation. -/
theorem groupIndices_char (n : ℕ) (adj : ℕ → ℕ → Bool) :
    (groupIndices n adj).flatten.Perm (List.range n)
    ∧ (∀ g ∈ groupIndices n adj, g.Sublist (List.range n))
    ∧ (∀ i j, i < n → j < n →
        ((∃ g ∈ groupIndices n adj, i ∈ g ∧ j ∈ g) ↔
          Relation.EqvGen (fun u v => u < v ∧ v < n ∧ adj u v = true) i j)) := by
  have hbound : ∀ p ∈ allPairs n, p.1 < n ∧ p.2 < n := by
    intro p hp
    obtain ⟨u, v⟩ := p
    have := (allPairs_mem n u v).mp hp
    exact ⟨by omega, this.2⟩
  obtain ⟨hUF, hchar⟩ := foldPairs_spec adj (allPairs n) (List.range n) (UF_range n) hbound
  set parF := foldPairs adj (allPairs n) (List.range n) with hparF
  have hgi : groupIndices n adj = (specGroups (rootD parF) n).map (fun e => e.2) := by
    unfold groupIndices
    dsimp only
    rw [← hparF, collectGroups_snd hUF]
  obtain ⟨sg1, sg2, sg3⟩ := specGroups_char (rootD parF) n
  have hsame_iff : ∀ i j, i < n → j < n →
      (rootD parF i = rootD parF j ↔
        Relation.EqvGen (fun u v => u < v ∧ v < n ∧ adj u v = true) i j) := by
    intro i j hi hj
    rw [← sameRoot_iff_rootD hUF hi hj, hchar i j hi hj]
    rw [eqvGen_congr_gen (G := fun u v => u = v ∨ (u < v ∧ v < n ∧ adj u v = true)) ?_ i j]
    · exact eqvGen_absorb_eq i j
    · intro u v
      rw [sameRoot_range, Linked, allPairs_mem]
      tauto
  refine ⟨?_, ?_, ?_⟩
  · rw [hgi]
    have hnodup_flat : ((specGroups (rootD parF) n).map (fun e => e.2)).flatten.Nodup := by
      rw [List.nodup_flatten]
      constructor
      · intro l hl
        rcases List.mem_map.mp hl with ⟨e, he, rfl⟩
        rw [(sg1 e he).1]
        exact List.Nodup.filter _ (List.nodup_range n)
      · rw [List.pairwise_map]
        have hkeys : List.Pairwise (fun e1 e2 : ℕ × List ℕ => e1.1 ≠ e2.1)
            (specGroups (rootD parF) n) := List.pairwise_map.mp sg2
        refine hkeys.imp_of_mem ?_
        intro e1 e2 he1 he2 hne
        intro a ha1 ha2
        rw [(sg1 e1 he1).1] at ha1
        rw [(sg1 e2 he2).1] at ha2
        have h1 : rootD parF a = e1.1 := by simpa using (List.mem_filter.mp ha1).2
        have h2 : rootD parF a = e2.1 := by simpa using (List.mem_filter.mp ha2).2
        exact hne (h1 ▸ h2)
    refine List.perm_of_nodup_nodup_toFinset_eq hnodup_flat (List.nodup_range n) ?_
    ext a
    rw [List.mem_toFinset, List.mem_toFinset, List.mem_flatten]
    constructor
    · rintro ⟨l, hl, ha⟩
      rcases List.mem_map.mp hl with ⟨e, he, rfl⟩
      rw [(sg1 e he).1] at ha
      exact (List.mem_filter.mp ha).1
    · intro ha
      obtain ⟨e, he, hke⟩ := sg3 a (List.mem_range.mp ha)
      refine ⟨e.2, List.mem_map.mpr ⟨e, he, rfl⟩, ?_⟩
      rw [(sg1 e he).1]
      exact List.mem_filter.mpr ⟨ha, by simpa using hke.symm⟩
  · rw [hgi]
    intro g hg
    rcases List.mem_map.mp hg with ⟨e, he, rfl⟩
    rw [(sg1 e he).1]
    exact List.filter_sublist _
  · intro i j hi hj
    rw [hgi, ← hsame_iff i j hi hj]
    constructor
    · rintro ⟨g, hg, hig, hjg⟩
      rcases List.mem_map.mp hg with ⟨e, he, rfl⟩
      rw [(sg1 e he).1] at hig hjg
      have h1 : rootD parF i = e.1 := by simpa using (List.mem_filter.mp hig).2
      have h2 : rootD parF j = e.1 := by simpa using (List.mem_filter.mp hjg).2
      rw [h1, h2]
    · intro heq
      obtain ⟨e, he, hke⟩ := sg3 i hi
      refine ⟨e.2, List.mem_map.mpr ⟨e, he, rfl⟩, ?_, ?_⟩
      · rw [(sg1 e he).1]
        exact List.mem_filter.mpr ⟨List.mem_range.mpr hi, by simpa using hke.symm⟩
      · rw [(sg1 e he).1]
        refine List.mem_filter.mpr ⟨List.mem_range.mpr hj, ?_⟩
        have : rootD parF j = e.1 := heq ▸ hke.symm
        simpa using this

/-! C6: the grouper computes connected components in insertion order. -/

/-- C6 (confirmed): `_group_overlapping_polygons` partitions the valid
detections into exactly the connected components of the pairwise
adjacency relation — two entries share a group exactly when they are
related by the equivalence closure (so `A`–`B` and `B`–`C` adjacency puts
`A`, `B`, `C` in one group even when `A`, `C` are not directly adjacent) —
the groups together cover each input exactly once, and inside every group
the members appear in input insertion order, making the output a function
of the input alone. -/
theorem C6_grouping_is_connected_components {P : Type} (G : PixelGeo P)
    (cfg : OBBMerger) (pwd : List (P × PixelDet)) (i j : ℕ)
    (hi : i < pwd.length) (hj : j < pwd.length) :
    groupOverlappingPolygons G cfg pwd
        = (groupIndices pwd.length (pairAdj G cfg pwd)).map
            (fun g => g.filterMap (fun k => pwd[k]?))
    ∧ (groupIndices pwd.length (pairAdj G cfg pwd)).flatten.Perm
        (List.range pwd.length)
    ∧ (∀ g ∈ groupIndices pwd.length (pairAdj G cfg pwd),
        g.Sublist (List.range pwd.length))
    ∧ ((∃ g ∈ groupIndices pwd.length (pairAdj G cfg pwd), i ∈ g ∧ j ∈ g) ↔
        Relation.EqvGen
          (fun u v => u < v ∧ v < pwd.length ∧ pairAdj G cfg pwd u v = true) i j) :=
  ⟨rfl, (groupIndices_char pwd.length (pairAdj G cfg pwd)).1,
    (groupIndices_char pwd.length (pairAdj G cfg pwd)).2.1,
    (groupIndices_char pwd.length (pairAdj G cfg pwd)).2.2 i j hi hj⟩

/-- A 10×10 box overlapping `sq10` by a 2-wide strip. -/
def boxB : BoxPoly := [(8, 0), (18, 0), (18, 10), (8, 10)]

/-- A 10×10 box overlapping `boxB` by a 2-wide strip, 6 away from `sq10`. -/
def boxC : BoxPoly := [(16, 0), (26, 0), (26, 10), (16, 10)]

/-- A configuration with a tight 1-pixel distance fallback, so that only
the genuinely overlapping pairs are adjacent. -/
def cfgT : OBBMerger := mkOBBMerger (1/10) (1/20) 1 true true

/-- The transitivity scenario: A overlaps B, B overlaps C, A and C are
6 apart (not adjacent under `cfgT`). -/
def pwdT : List (BoxPoly × PixelDet) := [(sq10, dPlain), (boxB, dPlain), (boxC, dPlain)]

/-- Witness for C6 on the transitivity scenario, at the index pair (0, 2)
whose entries are only transitively connected. -/
theorem C6_grouping_is_connected_components_witness :
    (0 < pwdT.length) ∧ (2 < pwdT.length)
    ∧ (groupOverlappingPolygons BoxGeo cfgT pwdT
          = (groupIndices pwdT.length (pairAdj BoxGeo cfgT pwdT)).map
              (fun g => g.filterMap (fun k => pwdT[k]?))
        ∧ (groupIndices pwdT.length (pairAdj BoxGeo cfgT pwdT)).flatten.Perm
            (List.range pwdT.length)
        ∧ (∀ g ∈ groupIndices pwdT.length (pairAdj BoxGeo cfgT pwdT),
            g.Sublist (List.range pwdT.length))
        ∧ ((∃ g ∈ groupIndices pwdT.length (pairAdj BoxGeo cfgT pwdT),
              0 ∈ g ∧ 2 ∈ g) ↔
            Relation.EqvGen
              (fun u v => u < v ∧ v < pwdT.length ∧ pairAdj BoxGeo cfgT pwdT u v = true)
              0 2)) :=
  ⟨by decide, by decide,
    C6_grouping_is_connected_components BoxGeo cfgT pwdT 0 2 (by decide) (by decide)⟩

/-- The default configuration with merging disabled. -/
def cfgDisabled : OBBMerger := mkOBBMerger (1/10) (1/20) 50 false true

/-- Witness for C3 (amended): with merging disabled the input passes
through unchanged, and on the mixed invalid/valid input the surviving
output element comes from `polygons_with_data`. -/
theorem C3_invalid_detections_dropped_witness :
    (cfgDisabled.enabled = false ∨ cfgDisabled.available = false
      ∨ ([dInvalid, dPlain] : List PixelDet).length = 0
      ∨ ([dInvalid, dPlain] : List PixelDet).length = 1
      ∨ validPolys BoxGeo [dInvalid, dPlain] = [])
    ∧ mergeOverlappingDetections BoxGeo cfgDisabled [dInvalid, dPlain] = [dInvalid, dPlain]
    ∧ dPlain ∈ mergeOverlappingDetections BoxGeo obb_merger [dInvalid, dPlain]
    ∧ (mergeOverlappingDetections BoxGeo obb_merger [dInvalid, dPlain] = [dInvalid, dPlain]
        ∨ (∃ p, (p, dPlain) ∈ validPolys BoxGeo [dInvalid, dPlain])
        ∨ (∃ g ∈ groupOverlappingPolygons BoxGeo obb_merger
              (validPolys BoxGeo [dInvalid, dPlain]),
            2 ≤ g.length ∧ mergeGroup BoxGeo g = some dPlain)) :=
  ⟨Or.inl (by decide),
    (C3_invalid_detections_dropped BoxGeo cfgDisabled [dInvalid, dPlain]).1
      (Or.inl (by decide)),
    by decide,
    (C3_invalid_detections_dropped BoxGeo obb_merger [dInvalid, dPlain]).2 dPlain
      (by decide)⟩
